import Mathlib

/-!
Verification of the mindarch knowledge-graph core against its specification.

The Python sources are shallowly embedded: MongoDB ObjectIds become `Nat`,
datetimes become logical `Nat` timestamps, Python dicts that the code treats
as records become Lean structures, and every `async` database operation
becomes explicit state passing.  Floats (confidence values) are carried as
integers in tenths; the code never computes with them, only stores and
copies them, so any opaque representation is faithful.
-/

namespace MindArch

/-- Traversal direction of a path step, `"outgoing"`/`"incoming"` in the code
(`db/repositories/semantic_triple_repo.py`, `find_path`). -/
inductive Direction where
  | outgoing
  | incoming
deriving DecidableEq

/-- One step of a relation path: `{"triple_id": ..., "direction": ...}`. -/
structure PathStep where
  tripleId : Nat
  direction : Direction
deriving DecidableEq

/-- `SemanticTriple` document (`core/models/semantic_triple.py`).  Fields the
claims never read (`context`, `source_id`, `metadata`, `properties`) are
omitted; `confidence` is the float carried in tenths (default 0.8). -/
structure SemanticTriple where
  id : Nat
  subjectId : Nat
  predicate : String
  objectId : Nat
  relationType : String := "generic"
  confidence : Int := 8
  bidirectional : Bool := false
  createdAt : Nat := 0
  updatedAt : Nat := 0
deriving DecidableEq

/-- Stable insertion into a list sorted by `createdAt` descending; together
with `sortByCreatedDesc` this embeds the repository's default
`sort([("created_at", -1)])`. -/
def insertByCreatedDesc (t : SemanticTriple) : List SemanticTriple → List SemanticTriple
  | [] => [t]
  | u :: us => if u.createdAt > t.createdAt then u :: insertByCreatedDesc t us else t :: u :: us

/-- Sort triples by `createdAt` descending (stable insertion sort). -/
def sortByCreatedDesc (l : List SemanticTriple) : List SemanticTriple :=
  l.foldr insertByCreatedDesc []

/-- `SemanticTripleRepository.find({"subject_id": u}, limit=100)`: all triples
with subject `u`, sorted by `created_at` descending, first 100. -/
def findBySubject (db : List SemanticTriple) (u : Nat) : List SemanticTriple :=
  (sortByCreatedDesc (db.filter (fun t => t.subjectId = u))).take 100

/-- `SemanticTripleRepository.find({"object_id": u}, limit=100)`. -/
def findByObject (db : List SemanticTriple) (u : Nat) : List SemanticTriple :=
  (sortByCreatedDesc (db.filter (fun t => t.objectId = u))).take 100

/-- A BFS queue entry `(unit_id, path-so-far)`. -/
abbrev PathEntry := Nat × List PathStep

/-- Children enqueued when expanding one node: for each triple in the fetched
list whose far end is not yet visited, append one step to the current path
(the two `for triple in ...` loops inside `find_path`). -/
def expandChildren (visited : List Nat) (path : List PathStep) (triples : List SemanticTriple)
    (far : SemanticTriple → Nat) (dir : Direction) : List PathEntry :=
  triples.filterMap fun t =>
    if far t ∈ visited then none else some (far t, path ++ [⟨t.id, dir⟩])

/-- Result of processing one BFS level of `find_path`. -/
inductive LevelResult where
  | found (path : List PathStep)
  | cont (next : List PathEntry) (visited : List Nat)

/-- Process the entries of one BFS level of `find_path` (the
`for _ in range(level_size)` loop): skip already-visited units, mark a unit
visited at dequeue, return the path on reaching `endId`, otherwise enqueue
unvisited neighbours through outgoing then incoming triples. -/
def runLevel (db : List SemanticTriple) (endId : Nat) :
    List PathEntry → List Nat → List PathEntry → LevelResult
  | [], visited, next => .cont next visited
  | (u, path) :: rest, visited, next =>
    if u ∈ visited then runLevel db endId rest visited next
    else
      let visited' := u :: visited
      if u = endId then .found path
      else
        let outChildren := expandChildren visited' path (findBySubject db u) (·.objectId) .outgoing
        let inChildren := expandChildren visited' path (findByObject db u) (·.subjectId) .incoming
        runLevel db endId rest visited' (next ++ outChildren ++ inChildren)

/-- The `while queue and max_depth > 0` loop of `find_path`: one recursive
call per BFS level, decrementing the depth budget after each full level. -/
def findPathAux (db : List SemanticTriple) (endId : Nat) :
    Nat → List PathEntry → List Nat → Option (List PathStep)
  | 0, _, _ => none
  | d + 1, queue, visited =>
    if queue.isEmpty then none
    else
      match runLevel db endId queue visited [] with
      | .found p => some p
      | .cont next visited' => findPathAux db endId d next visited'

/-- `SemanticTripleRepository.find_path(start_id, end_id, max_depth)`:
breadth-first search over the triple graph, treating triples as traversable
in both directions, with a visited set and a per-level depth budget.
Returns `none` for the Python `None` ("not found"). -/
def find_path (db : List SemanticTriple) (startId endId : Nat) (maxDepth : Nat) :
    Option (List PathStep) :=
  findPathAux db endId maxDepth [(startId, [])] []

/-- The four-unit chain `U1→U2→U3→U4` of the specification's path-finding
scenario, with distinct creation timestamps. -/
def chainDb : List SemanticTriple :=
  [ { id := 11, subjectId := 1, predicate := "precedes", objectId := 2, createdAt := 1 },
    { id := 12, subjectId := 2, predicate := "precedes", objectId := 3, createdAt := 2 },
    { id := 13, subjectId := 3, predicate := "precedes", objectId := 4, createdAt := 3 } ]

/-- Python `str.lower()` (character-wise; kernel-computable form of
`String.toLower`). -/
def strLower (s : String) : String :=
  String.mk (s.toList.map Char.toLower)

/-- Python `str.strip()` (kernel-computable form of `String.trim`). -/
def strTrim (s : String) : String :=
  String.mk (((s.toList.dropWhile Char.isWhitespace).reverse.dropWhile Char.isWhitespace).reverse)

/-- Python slice `s[:n]` (kernel-computable form of `String.take`). -/
def strTake (s : String) (n : Nat) : String :=
  String.mk (s.toList.take n)

/-- Undirected adjacency in the triple graph: some triple links `u` and `v`
in either direction (the reachability notion `find_path` explores). -/
def Adj (db : List SemanticTriple) (u v : Nat) : Prop :=
  ∃ t ∈ db, (t.subjectId = u ∧ t.objectId = v) ∨ (t.subjectId = v ∧ t.objectId = u)

/-- `ReachN db n u v`: there is a walk of exactly `n` undirected hops from
`u` to `v` through the triples of `db`. -/
inductive ReachN (db : List SemanticTriple) : Nat → Nat → Nat → Prop where
  | refl (u : Nat) : ReachN db 0 u u
  | step {u v w : Nat} {n : Nat} : Adj db u v → ReachN db n v w → ReachN db (n + 1) u w

/-- `metrics` subdocument of a knowledge unit; only the fields the claims
read are modelled. -/
structure UnitMetrics where
  outgoingRelations : Int := 0
  incomingRelations : Int := 0
  viewCount : Int := 0
deriving DecidableEq

/-- A value inside a Mongo-style update payload: integer, string, logical
timestamp, or a (flat) numeric subdocument such as the argument of `$inc`. -/
inductive DocVal where
  | int (n : Int)
  | str (s : String)
  | time (t : Nat)
  | doc (fields : List (String × Int))
deriving DecidableEq

/-- `KnowledgeUnit` document (`core/models/knowledge_unit.py`), restricted to
the fields the claims read.  `importance` models `knowledge.importance` when
present.  `extraFields` holds literal fields written by `$set` under keys
that are not unit schema paths (see `setUnitField`). -/
structure KnowledgeUnit where
  id : Nat
  title : String := ""
  content : String := ""
  canonicalName : String := ""
  unitType : String := "note"
  importance : Option Int := none
  metrics : UnitMetrics := {}
  extraFields : List (String × DocVal) := []
  createdAt : Nat := 0
  updatedAt : Nat := 0
deriving DecidableEq

/-- Replace-or-append in an association list (document field assignment). -/
def setAssoc (l : List (String × DocVal)) (k : String) (v : DocVal) : List (String × DocVal) :=
  if l.any (fun kv => kv.1 = k) then l.map (fun kv => if kv.1 = k then (k, v) else kv)
  else l ++ [(k, v)]

/-- Apply one `$set` assignment to a unit document.  Recognised unit schema
paths update the corresponding typed field; any other key — in particular
the operator name `"$inc"` that `SemanticTripleService` passes as its
payload — is stored as a literal extra field and does *not* perform an
increment.  (Real MongoDB rejects dollar-prefixed field paths inside `$set`
outright, raising instead; under neither semantics does a counter change.) -/
def setUnitField (u : KnowledgeUnit) (kv : String × DocVal) : KnowledgeUnit :=
  match kv with
  | ("updated_at", .time t) => { u with updatedAt := t }
  | ("metrics.outgoing_relations", .int n) =>
      { u with metrics := { u.metrics with outgoingRelations := n } }
  | ("metrics.incoming_relations", .int n) =>
      { u with metrics := { u.metrics with incomingRelations := n } }
  | (k, v) => { u with extraFields := setAssoc u.extraFields k v }

/-- Update the first unit with the given id (Mongo `update_one`). -/
def updateFirstUnit (units : List KnowledgeUnit) (unitId : Nat)
    (f : KnowledgeUnit → KnowledgeUnit) : List KnowledgeUnit :=
  match units with
  | [] => []
  | u :: rest => if u.id = unitId then f u :: rest else u :: updateFirstUnit rest unitId f

/-- `KnowledgeUnitRepository.update(unit_id, data)`: wraps the caller's
payload in one `{"$set": {**data, "updated_at": now}}` update document and
applies it.  Every key of `data` goes through `$set` — the update operators
a caller might pass *inside* `data` (the service's `{"$inc": ...}`) are not
interpreted. -/
def unitRepoUpdate (units : List KnowledgeUnit) (unitId : Nat)
    (data : List (String × DocVal)) (now : Nat) : List KnowledgeUnit :=
  updateFirstUnit units unitId
    (fun u => (data ++ [("updated_at", DocVal.time now)]).foldl setUnitField u)

/-- The `{"$inc": {field: n}}` payload the triple service passes to the unit
repository for counter maintenance. -/
def incPayload (field : String) (n : Int) : List (String × DocVal) :=
  [("$inc", DocVal.doc [(field, n)])]

/-- `KnowledgeGraph` document (`core/models/knowledge_graph.py`), restricted
to the fields the claims read. -/
structure KnowledgeGraph where
  id : Nat
  name : String := ""
  ownerId : String := ""
  rootUnits : List Nat := []
  includedUnits : List Nat := []
  includedTriples : List Nat := []
  status : String := "active"
  entityCount : Int := 0
  relationCount : Int := 0
  createdAt : Nat := 0
  updatedAt : Nat := 0
deriving DecidableEq

/-- The three top-level collections plus the id generator for inserts. -/
structure AppState where
  units : List KnowledgeUnit := []
  triples : List SemanticTriple := []
  graphs : List KnowledgeGraph := []
  nextId : Nat := 100
deriving DecidableEq

/-- `KnowledgeUnitRepository.get_by_id`. -/
def unitById (units : List KnowledgeUnit) (unitId : Nat) : Option KnowledgeUnit :=
  units.find? (fun u => u.id = unitId)

/-- The `triple_data` dict passed to `SemanticTripleService.create` /
`bulk_create`; `none` models an absent key. -/
structure TripleData where
  subjectId : Option Nat := none
  predicate : Option String := none
  objectId : Option Nat := none
  relationType : String := "generic"
  confidence : Int := 8
  bidirectional : Bool := false
deriving DecidableEq

/-- `SemanticTripleService._validate_triple_data`: the three keys must be
present, subject and object must differ, and the predicate must not be
blank after stripping. -/
def validateTripleData (d : TripleData) : Bool :=
  d.subjectId.isSome && d.predicate.isSome && d.objectId.isSome
    && !(d.subjectId == d.objectId)
    && !(strTrim (d.predicate.getD "") == "")

/-- `SemanticTripleService._find_duplicate`: first stored triple with the
same `(subject_id, predicate, object_id)` (Mongo `find_one`, natural
order). -/
def findDuplicate (triples : List SemanticTriple) (s : Nat) (p : String) (o : Nat) :
    Option SemanticTriple :=
  triples.find? (fun t => t.subjectId = s ∧ t.predicate = p ∧ t.objectId = o)

/-- Result of `SemanticTripleService.create`. -/
inductive TripleCreateResult where
  | error (msg : String)
  | duplicate (tripleId : Nat)
  | success (tripleId : Nat)
deriving DecidableEq

/-- Build the `SemanticTriple` document that `create`/`bulk_create`
construct from validated data (id assigned at insert; timestamps from the
logical clock). -/
def mkTripleDoc (tripleId : Nat) (d : TripleData) (now : Nat) : SemanticTriple :=
  { id := tripleId, subjectId := d.subjectId.getD 0, predicate := d.predicate.getD "",
    objectId := d.objectId.getD 0, relationType := d.relationType,
    confidence := d.confidence, bidirectional := d.bidirectional,
    createdAt := now, updatedAt := now }

/-- `SemanticTripleService.create`: validate, check both endpoint units
exist, reject duplicates, insert, then attempt the relation-counter updates
by passing `{"$inc": ...}` payloads through `KnowledgeUnitRepository.update`
(which wraps them in `$set` — see `setUnitField`). -/
def tripleServiceCreate (st : AppState) (d : TripleData) (now : Nat) :
    TripleCreateResult × AppState :=
  if !validateTripleData d then (.error "无效的三元组数据", st)
  else
    match d.subjectId, d.predicate, d.objectId with
    | some s, some p, some o =>
      match unitById st.units s, unitById st.units o with
      | some _, some _ =>
        (match findDuplicate st.triples s p o with
         | some t => (.duplicate t.id, st)
         | none =>
           let triple := mkTripleDoc st.nextId d now
           let st1 := { st with triples := st.triples ++ [triple], nextId := st.nextId + 1 }
           let units1 := unitRepoUpdate st1.units s (incPayload "metrics.outgoing_relations" 1) now
           let units2 := unitRepoUpdate units1 o (incPayload "metrics.incoming_relations" 1) now
           (.success triple.id, { st1 with units := units2 }))
      | _, _ => (.error "主语或宾语单元不存在", st)
    | _, _, _ => (.error "无效的三元组数据", st)

/-- Result of `SemanticTripleService.delete`. -/
inductive TripleDeleteResult where
  | error (msg : String)
  | success (deleted : Nat)
deriving DecidableEq

/-- Remove the first triple with the given id (Mongo `delete_one`). -/
def removeFirstTriple (triples : List SemanticTriple) (tripleId : Nat) : List SemanticTriple :=
  match triples with
  | [] => []
  | t :: rest => if t.id = tripleId then rest else t :: removeFirstTriple rest tripleId

/-- `SemanticTripleService.delete`: check existence, attempt the two counter
decrements through the same `$set`-wrapping repository update, then delete
the triple document. -/
def tripleServiceDelete (st : AppState) (tripleId : Nat) (now : Nat) :
    TripleDeleteResult × AppState :=
  match st.triples.find? (fun t => t.id = tripleId) with
  | none => (.error "语义三元组不存在", st)
  | some t =>
    let units1 := unitRepoUpdate st.units t.subjectId (incPayload "metrics.outgoing_relations" (-1)) now
    let units2 := unitRepoUpdate units1 t.objectId (incPayload "metrics.incoming_relations" (-1)) now
    (.success 1, { st with units := units2, triples := removeFirstTriple st.triples tripleId })

/-- The documents `SemanticTripleService.bulk_create` builds from the valid
entries of a batch, with ids assigned sequentially at `insert_many`. -/
def tripleObjectsFrom (baseId : Nat) (valid : List TripleData) (now : Nat) :
    List SemanticTriple :=
  valid.enum.map (fun p => mkTripleDoc (baseId + p.1) p.2 now)

/-- Count the occurrences of each key, keys listed in first-occurrence order
(the `subject_counts` / `object_counts` dicts of `bulk_create`). -/
def countKeys (l : List Nat) : List (Nat × Int) :=
  l.foldl
    (fun acc k =>
      if acc.any (fun kv => kv.1 = k) then
        acc.map (fun kv => if kv.1 = k then (kv.1, kv.2 + 1) else kv)
      else acc ++ [(k, 1)])
    []

/-- Summary record of a successful `SemanticTripleService.bulk_create`. -/
structure TripleBulkOk where
  created : Nat
  skipped : Nat
  tripleIds : List Nat
deriving DecidableEq

/-- Result of `SemanticTripleService.bulk_create`. -/
inductive TripleBulkResult where
  | error (msg : String)
  | success (r : TripleBulkOk)
deriving DecidableEq

/-- `SemanticTripleService.bulk_create`: entries failing validation are
skipped and counted, the remaining documents are bulk-inserted, and the
aggregated per-unit counter updates are attempted through the same
`$set`-wrapping repository update. -/
def tripleServiceBulkCreate (st : AppState) (batch : List TripleData) (now : Nat) :
    TripleBulkResult × AppState :=
  let valid := batch.filter validateTripleData
  let skipped := batch.length - valid.length
  if valid.isEmpty then (.error "没有有效的三元组数据", st)
  else
    let objs := tripleObjectsFrom st.nextId valid now
    let units1 := (countKeys (objs.map (·.subjectId))).foldl
      (fun us kv => unitRepoUpdate us kv.1 (incPayload "metrics.outgoing_relations" kv.2) now)
      st.units
    let units2 := (countKeys (objs.map (·.objectId))).foldl
      (fun us kv => unitRepoUpdate us kv.1 (incPayload "metrics.incoming_relations" kv.2) now)
      units1
    (.success { created := objs.length, skipped := skipped, tripleIds := objs.map (·.id) },
     { st with units := units2, triples := st.triples ++ objs, nextId := st.nextId + objs.length })

/-- Collapse each maximal run of whitespace to a single underscore (the
`re.sub(r'\s+', '_', ...)` step); the input is already stripped, so
`prevWs` starts false. -/
def collapseWsGo (prevWs : Bool) : List Char → List Char
  | [] => []
  | c :: rest =>
    if c.isWhitespace then (if prevWs then [] else ['_']) ++ collapseWsGo true rest
    else c :: collapseWsGo false rest

/-- Strip leading and trailing whitespace from a character list. -/
def stripWs (cs : List Char) : List Char :=
  ((cs.dropWhile Char.isWhitespace).reverse.dropWhile Char.isWhitespace).reverse

/-- `_generate_canonical_name(title)` for the ASCII alphabet: lower-case,
drop characters outside `\w`/`\s`, strip, turn whitespace runs into
underscores, truncate to 50, and fall back to a timestamp-based name when
empty.  The CJK/pinyin branch of the Python code is not modelled (no claim
reads canonical names); the timestamp is the logical clock. -/
def genCanonicalName (title : String) (now : Nat) : String :=
  let lowered := (strLower title).toList
  let kept := lowered.filter (fun c => c.isAlphanum || c == '_' || c.isWhitespace)
  let name := String.mk (collapseWsGo false (stripWs kept))
  let name := strTake name 50
  if name == "" then "unit_" ++ toString now else name

/-- The `unit_data` dict passed to `KnowledgeUnitService.bulk_create`;
`none` models an absent key. -/
structure UnitData where
  title : Option String := none
  content : String := ""
  canonicalName : Option String := none
  unitType : String := "note"
deriving DecidableEq

/-- The object-building loop of `KnowledgeUnitService.bulk_create`:
`_validate_unit_data` *raises* `ValueError` on a missing or empty title
(modelled as `Except.error`), aborting the whole batch; otherwise the title
is truncated to 100 characters and a canonical name is generated when
absent or empty. -/
def buildUnitObjects (nextId : Nat) (now : Nat) : List UnitData →
    Except String (List KnowledgeUnit)
  | [] => .ok []
  | d :: rest =>
    match d.title with
    | none => .error "知识单元必须有标题"
    | some t =>
      if t = "" then .error "知识单元必须有标题"
      else
        let t' := strTake t 100
        let cname :=
          match d.canonicalName with
          | some c => if c = "" then genCanonicalName t' now else c
          | none => genCanonicalName t' now
        let u : KnowledgeUnit :=
          { id := nextId, title := t', content := d.content, canonicalName := cname,
            unitType := d.unitType, createdAt := now, updatedAt := now }
        (buildUnitObjects (nextId + 1) now rest).map (u :: ·)

/-- Result of `KnowledgeUnitService.bulk_create` when no exception is
raised. -/
inductive UnitBulkResult where
  | error (msg : String)
  | success (created : Nat) (unitIds : List Nat)
deriving DecidableEq

/-- `KnowledgeUnitService.bulk_create`: builds all documents first (a
validation failure raises, aborting with nothing inserted), then
bulk-inserts them. -/
def unitServiceBulkCreate (st : AppState) (batch : List UnitData) (now : Nat) :
    Except String (UnitBulkResult × AppState) :=
  match buildUnitObjects st.nextId now batch with
  | .error e => .error e
  | .ok objs =>
    if objs.isEmpty then .ok (.error "没有有效的单元数据", st)
    else
      .ok (.success objs.length (objs.map (·.id)),
        { st with units := st.units ++ objs, nextId := st.nextId + objs.length })

/-- Result of `add_units` / `add_triples` on a knowledge graph. -/
inductive AddResult where
  | error (msg : String)
  | success (added : Nat)
deriving DecidableEq

/-- Mongo `$addToSet` with `$each`: append, in order, each id not already
present. -/
def addToSet (included : List Nat) (ids : List Nat) : List Nat :=
  ids.foldl (fun acc i => if i ∈ acc then acc else acc ++ [i]) included

/-- Replace the first graph with the given id (Mongo `update_one`). -/
def updateFirstGraph (graphs : List KnowledgeGraph) (graphId : Nat)
    (g' : KnowledgeGraph) : List KnowledgeGraph :=
  match graphs with
  | [] => []
  | g :: rest => if g.id = graphId then g' :: rest else g :: updateFirstGraph rest graphId g'

/-- `KnowledgeGraphRepository.add_units`: the ids not currently included are
counted into `entity_count`, while the id list itself is added with
`$addToSet` — an id repeated inside one call is counted once per occurrence
but stored once. -/
def graphAddUnits (st : AppState) (graphId : Nat) (unitIds : List Nat) (now : Nat) :
    AddResult × AppState :=
  match st.graphs.find? (fun g => g.id = graphId) with
  | none => (.error "知识图谱不存在", st)
  | some g =>
    let newUnits := unitIds.filter (fun i => i ∉ g.includedUnits)
    if newUnits.isEmpty then (.success 0, st)
    else
      let g' :=
        { g with includedUnits := addToSet g.includedUnits unitIds,
                 entityCount := g.entityCount + newUnits.length, updatedAt := now }
      (.success newUnits.length, { st with graphs := updateFirstGraph st.graphs graphId g' })

/-- Duplicate-free list of the elements in first-occurrence order (the
Python `set` of endpoint ids; set iteration order is arbitrary, and no
claim depends on it). -/
def dedupNat (l : List Nat) : List Nat :=
  addToSet [] l

/-- `KnowledgeGraphRepository.add_triples`: like `add_units` for the triple
list, then the endpoint units of the added triples that exist in the store
are auto-included through `add_units`. -/
def graphAddTriples (st : AppState) (graphId : Nat) (tripleIds : List Nat) (now : Nat) :
    AddResult × AppState :=
  match st.graphs.find? (fun g => g.id = graphId) with
  | none => (.error "知识图谱不存在", st)
  | some g =>
    let newTriples := tripleIds.filter (fun i => i ∉ g.includedTriples)
    if newTriples.isEmpty then (.success 0, st)
    else
      let g' :=
        { g with includedTriples := addToSet g.includedTriples tripleIds,
                 relationCount := g.relationCount + newTriples.length, updatedAt := now }
      let st1 := { st with graphs := updateFirstGraph st.graphs graphId g' }
      let found := st1.triples.filter (fun t => t.id ∈ tripleIds)
      let endpointIds := dedupNat (found.foldl (fun acc t => acc ++ [t.subjectId, t.objectId]) [])
      if endpointIds.isEmpty then (.success newTriples.length, st1)
      else (.success newTriples.length, (graphAddUnits st1 graphId endpointIds now).2)

/-- The degree score of the root-selection aggregation pipeline:
`metrics.outgoing_relations + metrics.incoming_relations`. -/
def unitScore (u : KnowledgeUnit) : Int :=
  u.metrics.outgoingRelations + u.metrics.incomingRelations

/-- Stable insertion into a list sorted by `unitScore` descending. -/
def insertByScoreDesc (u : KnowledgeUnit) : List KnowledgeUnit → List KnowledgeUnit
  | [] => [u]
  | v :: vs => if unitScore v > unitScore u then v :: insertByScoreDesc u vs else u :: v :: vs

/-- Sort units by degree score descending (the `$sort` of the aggregation;
ties are kept in store order, which no claim depends on). -/
def sortByScoreDesc (l : List KnowledgeUnit) : List KnowledgeUnit :=
  l.foldr insertByScoreDesc []

/-- Root selection of `get_graph_visual_data`: explicit non-empty
`root_ids`, else the graph's non-empty `root_units`, else the 5 included
units of highest degree; if still empty, the first 5 included units. -/
def selectRoots (st : AppState) (g : KnowledgeGraph) (rootIds : Option (List Nat)) : List Nat :=
  let roots :=
    match rootIds with
    | some (r :: rs) => r :: rs
    | _ =>
      if !g.rootUnits.isEmpty then g.rootUnits
      else
        let included := st.units.filter (fun u => decide (u.id ∈ g.includedUnits))
        ((sortByScoreDesc included).take 5).map (·.id)
  if roots.isEmpty && !g.includedUnits.isEmpty then g.includedUnits.take 5 else roots

/-- A node of the visualization payload. -/
structure VisualNode where
  id : Nat
  label : String
  unitType : String
  canonicalName : String
  importance : Int
deriving DecidableEq

/-- An edge of the visualization payload. -/
structure VisualEdge where
  id : Nat
  source : Nat
  target : Nat
  label : String
  relType : String
  confidence : Int
  bidirectional : Bool
deriving DecidableEq

/-- The successful visualization payload (`nodes`, `edges`, metadata). -/
structure VisualData where
  nodes : List VisualNode
  edges : List VisualEdge
  graphName : String
  totalUnits : Nat
  totalRelations : Nat
  depth : Nat
deriving DecidableEq

/-- Result of `get_graph_visual_data`. -/
inductive VisualResult where
  | error (msg : String)
  | success (d : VisualData)
deriving DecidableEq

/-- The node record built for one visited unit. -/
def mkVisualNode (u : KnowledgeUnit) : VisualNode :=
  { id := u.id, label := u.title, unitType := u.unitType,
    canonicalName := u.canonicalName, importance := u.importance.getD 3 }

/-- The edge record built for one triple. -/
def mkVisualEdge (t : SemanticTriple) : VisualEdge :=
  { id := t.id, source := t.subjectId, target := t.objectId, label := t.predicate,
    relType := t.relationType, confidence := t.confidence, bidirectional := t.bidirectional }

/-- One `for triple in outgoing/incoming:` loop of `get_graph_visual_data`:
skip triples already visited, record the edge if its id is new, and enqueue
the far-end unit at depth+1 when not yet visited. -/
def processVisualTriples (vT : List Nat) (edges : List (Nat × VisualEdge))
    (queue : List (Nat × Nat)) (vU : List Nat) (cd : Nat) (ts : List SemanticTriple)
    (far : SemanticTriple → Nat) : List Nat × List (Nat × VisualEdge) × List (Nat × Nat) :=
  ts.foldl
    (fun acc t =>
      let (vT, edges, queue) := acc
      if t.id ∈ vT then (vT, edges, queue)
      else
        let vT' := t.id :: vT
        let edges' := if edges.any (fun e => e.1 = t.id) then edges
                      else edges ++ [(t.id, mkVisualEdge t)]
        let queue' := if far t ∈ vU then queue else queue ++ [(far t, cd + 1)]
        (vT', edges', queue'))
    (vT, edges, queue)

/-- The `while queue:` loop of `get_graph_visual_data`, embedded with an
explicit step budget `fuel` (one unit per dequeue; the Python loop always
terminates because every expansion visits a fresh unit, and every
property proved below holds for every budget). -/
def visualLoop (st : AppState) (g : KnowledgeGraph) (depth : Nat) :
    Nat → List (Nat × Nat) → List Nat → List Nat →
    List (Nat × VisualNode) → List (Nat × VisualEdge) →
    List (Nat × VisualNode) × List (Nat × VisualEdge)
  | _, [], _, _, nodes, edges => (nodes, edges)
  | 0, _ :: _, _, _, nodes, edges => (nodes, edges)
  | fuel + 1, (uid, cd) :: rest, vU, vT, nodes, edges =>
    if cd > depth then visualLoop st g depth fuel rest vU vT nodes edges
    else if uid ∈ vU then visualLoop st g depth fuel rest vU vT nodes edges
    else
      let vU' := uid :: vU
      match st.units.find? (fun u => u.id = uid) with
      | none => visualLoop st g depth fuel rest vU' vT nodes edges
      | some u =>
        let nodes' := if nodes.any (fun n => n.1 = uid) then nodes
                      else nodes ++ [(uid, mkVisualNode u)]
        if cd = depth then visualLoop st g depth fuel rest vU' vT nodes' edges
        else
          let outT := st.triples.filter
            (fun t => decide (t.subjectId = uid ∧ t.id ∈ g.includedTriples))
          let r1 := processVisualTriples vT edges rest vU' cd outT (·.objectId)
          let inT := st.triples.filter
            (fun t => decide (t.objectId = uid ∧ t.id ∈ g.includedTriples))
          let r2 := processVisualTriples r1.1 r1.2.1 r1.2.2 vU' cd inT (·.subjectId)
          visualLoop st g depth fuel r2.2.2 vU' r2.1 nodes' r2.2.1

/-- `KnowledgeGraphRepository.get_graph_visual_data(graph_id, depth,
root_ids)`: look up the graph, select roots, breadth-first collect nodes
and edges restricted to the graph's `included_triples`. -/
def getVisualData (fuel : Nat) (st : AppState) (graphId : Nat) (depth : Nat)
    (rootIds : Option (List Nat)) : VisualResult :=
  match st.graphs.find? (fun g => g.id = graphId) with
  | none => .error "知识图谱不存在"
  | some g =>
    let roots := selectRoots st g rootIds
    if roots.isEmpty then .error "图谱不包含任何单元"
    else
      let r := visualLoop st g depth fuel (roots.map (fun x => (x, 0))) [] [] [] []
      .success { nodes := r.1.map (·.2), edges := r.2.map (·.2), graphName := g.name,
                 totalUnits := r.1.length, totalRelations := r.2.length, depth := depth }

/-- Index of the last `'\n'` in a character list, when any. -/
def lastNewlineIdx : List Char → Option Nat
  | [] => none
  | c :: rest =>
    match lastNewlineIdx rest with
    | some k => some (k + 1)
    | none => if c = '\n' then some 0 else none

/-- `re.split(r'\n\s*\n', text)` on characters: a match starts at a `'\n'`
whose following maximal whitespace run contains another `'\n'`; the greedy
`\s*` makes the match extend to the last `'\n'` of that run.  `acc` holds
the current piece reversed. -/
def paraSplitGo (acc : List Char) : List Char → List (List Char)
  | [] => [acc.reverse]
  | c :: rest =>
    if c = '\n' then
      match lastNewlineIdx (rest.takeWhile Char.isWhitespace) with
      | some k => acc.reverse :: paraSplitGo [] (rest.drop (k + 1))
      | none => paraSplitGo (c :: acc) rest
    else paraSplitGo (c :: acc) rest
termination_by cs => cs.length
decreasing_by
  all_goals simp_wf
  omega

/-- The paragraph pieces of a text (`re.split(r'\n\s*\n', text)`). -/
def paraSplit (s : String) : List String :=
  (paraSplitGo [] s.toList).map String.mk

/-- The sentence terminators of `re.split(r'(?<=[.!?。！？])\s+', ...)`. -/
def isSentenceTerm (c : Char) : Bool :=
  c = '.' || c = '!' || c = '?' || c = '。' || c = '！' || c = '？'

/-- `re.split(r'(?<=[.!?。！？])\s+', para)` on characters: split at each
maximal whitespace run directly preceded by a sentence terminator. -/
def sentSplitGo (prevTerm : Bool) (acc : List Char) : List Char → List (List Char)
  | [] => [acc.reverse]
  | c :: rest =>
    if c.isWhitespace && prevTerm then
      acc.reverse :: sentSplitGo false [] (rest.dropWhile Char.isWhitespace)
    else sentSplitGo (isSentenceTerm c) (c :: acc) rest
termination_by cs => cs.length
decreasing_by
  all_goals simp_wf
  have h := (List.dropWhile_sublist (p := Char.isWhitespace) (l := rest)).length_le
  omega

/-- The sentence pieces of a paragraph. -/
def sentSplit (s : String) : List String :=
  (sentSplitGo false [] s.toList).map String.mk

/-- The `for i in range(0, len(sentence), max_chunk_size)` hard cut.  The
`m = 0` case is unreachable for the positive chunk sizes the code uses
(Python `range` would raise on a zero step). -/
def hardCut : List Char → Nat → List (List Char)
  | [], _ => []
  | _ :: _, 0 => []
  | c :: cs, m + 1 => (c :: cs).take (m + 1) :: hardCut ((c :: cs).drop (m + 1)) (m + 1)
termination_by cs _ => cs.length
decreasing_by
  simp_wf
  omega

/-- The inner `for sentence in sentences:` loop of `_split_text`: grow
`temp` while it fits, flush it otherwise, hard-cutting oversized sentences
(after which the code leaves the flushed `temp` in place — embedded
as-is). -/
def splitSentenceStep (maxChunkSize : Nat) (acc : List String × String) (sentence : String) :
    List String × String :=
  let (cs, temp) := acc
  if temp.length + sentence.length ≤ maxChunkSize then (cs, temp ++ sentence ++ " ")
  else
    let cs := if temp ≠ "" then cs ++ [strTrim temp] else cs
    if sentence.length > maxChunkSize then
      (cs ++ (hardCut sentence.toList maxChunkSize).map String.mk, temp)
    else (cs, sentence ++ " ")

/-- The `for para in paragraphs:` loop body of `_split_text`. -/
def splitParaStep (maxChunkSize : Nat) (acc : List String × String) (para : String) :
    List String × String :=
  let (chunks, current) := acc
  if para.length > maxChunkSize then
    let chunks := if current ≠ "" then chunks ++ [current] else chunks
    let r := (sentSplit para).foldl (splitSentenceStep maxChunkSize) (chunks, "")
    (if r.2 ≠ "" then r.1 ++ [strTrim r.2] else r.1, "")
  else if current.length + para.length + 2 ≤ maxChunkSize then
    (chunks, (if current ≠ "" then current ++ "\n\n" else current) ++ para)
  else (chunks ++ [current], para)

/-- `KnowledgeUnitExtractor._split_text(text, max_chunk_size=4000)`: a text
within the size limit is returned as a single chunk (the empty text
included); longer texts are split at paragraph, then sentence, then
character boundaries. -/
def splitText (text : String) (maxChunkSize : Nat := 4000) : List String :=
  if text.length ≤ maxChunkSize then [text]
  else
    let r := (paraSplit text).foldl (splitParaStep maxChunkSize) ([], "")
    if r.2 ≠ "" then r.1 ++ [r.2] else r.1

/-- A raw candidate unit flowing through `_deduplicate_units`: dict fields
`title`, `content`, the optional `_id`, and `status["is_duplicate"]`
(`none` models the key being absent). -/
structure CandidateUnit where
  title : String := ""
  content : String := ""
  docId : Option Nat := none
  isDuplicate : Option Bool := none
deriving DecidableEq

/-- Python substring test `s in t` on character lists. -/
def isSubstrB (s t : List Char) : Bool :=
  t.tails.any (fun suf => s.isPrefixOf suf)

/-- `KnowledgeUnitExtractor._similar_titles(t1, t2, threshold=0.8)`: the
characters of the shorter title that occur anywhere in the longer one must
make up at least 0.8 of the shorter title.  The Python float comparison
agrees with this exact `5·common ≥ 4·len` form for the title lengths the
code handles. -/
def similarTitles (title1 title2 : String) : Bool :=
  let shorter := if title1.length ≤ title2.length then title1 else title2
  let longer := if title1.length ≤ title2.length then title2 else title1
  if shorter = "" then false
  else
    let common := shorter.toList.countP (fun c => longer.toList.contains c)
    5 * common ≥ 4 * shorter.length

/-- The similarity test of `_deduplicate_units`: substring containment in
either direction, or `_similar_titles`. -/
def titlesMatch (title existing : String) : Bool :=
  isSubstrB title.toList existing.toList || isSubstrB existing.toList title.toList
    || similarTitles title existing

/-- First registered title similar to `title`, in insertion order (the
`for existing_title in title_map:` scan). -/
def findSimilarIdx (title : String) : List (String × Nat) → Option Nat
  | [] => none
  | (t, i) :: rest => if titlesMatch title t then some i else findSimilarIdx title rest

/-- The main loop of `_deduplicate_units`: `acc` is `unique_units`, `tmap`
is `title_map` (lower-cased title → index).  On a match the representative
gets `status["is_duplicate"] = False` when the key is absent, and is
replaced by the candidate when the candidate's content is longer (keeping
the representative's `_id` if it had one). -/
def dedupGo : List CandidateUnit → List CandidateUnit → List (String × Nat) →
    List CandidateUnit
  | [], acc, _ => acc
  | u :: rest, acc, tmap =>
    let title := strLower u.title
    if title = "" then dedupGo rest (acc ++ [u]) tmap
    else
      match findSimilarIdx title tmap with
      | some idx =>
        let old := acc.getD idx {}
        let marked := { old with isDuplicate := some (old.isDuplicate.getD false) }
        let acc1 := acc.set idx marked
        let acc2 :=
          if u.content.length > marked.content.length then
            acc1.set idx { u with docId := if marked.docId.isSome then marked.docId else u.docId }
          else acc1
        dedupGo rest acc2 tmap
      | none => dedupGo rest (acc ++ [u]) (tmap ++ [(title, acc.length)])

/-- `KnowledgeUnitExtractor._deduplicate_units`. -/
def deduplicateUnits (units : List CandidateUnit) : List CandidateUnit :=
  dedupGo units [] []

/-- The graph-membership bookkeeping invariant of the specification: the
denormalised counters equal the sizes of the inclusion lists (which,
as Mongo `$addToSet` sets, hold no duplicates). -/
def GraphCounted (g : KnowledgeGraph) : Prop :=
  g.entityCount = (g.includedUnits.length : Int) ∧
  g.relationCount = (g.includedTriples.length : Int) ∧
  g.includedUnits.Nodup ∧ g.includedTriples.Nodup

/-- Every unit has at most 100 outgoing and at most 100 incoming triples —
the regime in which the repository's `find(..., limit=100)` calls return
every matching triple. -/
def DegreeBounded (db : List SemanticTriple) : Prop :=
  ∀ u, (db.filter (fun t => t.subjectId = u)).length ≤ 100 ∧
       (db.filter (fun t => t.objectId = u)).length ≤ 100

/-- `v` is at BFS distance exactly `k` from `s`: reachable in `k` hops and
in no fewer. -/
def MinReach (db : List SemanticTriple) (s v : Nat) (k : Nat) : Prop :=
  ReachN db k s v ∧ ∀ j < k, ¬ ReachN db j s v

/-- A unit id the visual BFS may legitimately enqueue: a selected root, or
an endpoint of a triple included in the graph. -/
def QueueOk (st : AppState) (g : KnowledgeGraph) (R : List Nat) (uid : Nat) : Prop :=
  uid ∈ R ∨ ∃ t ∈ st.triples, t.id ∈ g.includedTriples ∧
    (uid = t.subjectId ∨ uid = t.objectId)

/-- A sound visualization edge: its triple is included in the graph and
exists in the store with matching endpoints and label. -/
def EdgeOk (st : AppState) (g : KnowledgeGraph) (e : VisualEdge) : Prop :=
  e.id ∈ g.includedTriples ∧ ∃ t ∈ st.triples, t.id = e.id ∧
    e.source = t.subjectId ∧ e.target = t.objectId ∧ e.label = t.predicate

/-- A sound visualization node: it is backed by a stored unit and is either
a selected root or an endpoint of an included triple. -/
def NodeOk (st : AppState) (g : KnowledgeGraph) (R : List Nat) (n : VisualNode) : Prop :=
  (∃ u ∈ st.units, u.id = n.id ∧ n.label = u.title) ∧ QueueOk st g R n.id

/-- Store state holding the four chain units and their three triples. -/
def chainState : AppState :=
  { units := [{ id := 1, title := "U1" }, { id := 2, title := "U2" },
              { id := 3, title := "U3" }, { id := 4, title := "U4" }],
    triples := chainDb }

/-- Store state with two linked-to-be units and no triples. -/
def twoUnitState : AppState :=
  { units := [{ id := 1, title := "U1" }, { id := 2, title := "U2" }] }

/-- A well-formed `triple_data` payload for units 1 and 2. -/
def sampleTripleData : TripleData :=
  { subjectId := some 1, predicate := some "causes", objectId := some 2 }

/-- Store state in which the triple (1, "causes", 2) already exists along
with both endpoint units. -/
def dupTripleState : AppState :=
  { units := [{ id := 1, title := "U1" }, { id := 2, title := "U2" }],
    triples := [{ id := 50, subjectId := 1, predicate := "causes", objectId := 2,
                  createdAt := 5 }] }

/-- Store state in which the triple (1, "causes", 2) exists but unit 1 has
been deleted from the unit collection (unit deletion does not cascade to
triples). -/
def orphanTripleState : AppState :=
  { units := [{ id := 2, title := "U2" }],
    triples := [{ id := 50, subjectId := 1, predicate := "causes", objectId := 2,
                  createdAt := 5 }] }

/-- Store state with one empty knowledge graph. -/
def emptyGraphState : AppState :=
  { graphs := [{ id := 70, name := "g" }] }

/-- Store state with an empty graph 80 and a unit 9 that the graph does not
include. -/
def strayUnitState : AppState :=
  { units := [{ id := 9, title := "stray", unitType := "note" }],
    graphs := [{ id := 80, name := "viz" }] }

/-- Candidate unit "Foo" with the shorter content. -/
def c7A : CandidateUnit := { title := "Foo", content := "x" }

/-- Candidate unit "foo" (case-insensitively the same title) with the
longer content. -/
def c7B : CandidateUnit := { title := "foo", content := "xyz" }

/-- A triple batch with one invalid entry (missing subject and object) and
one valid entry. -/
def mixedTripleBatch : List TripleData := [{ predicate := some "x" }, sampleTripleData]

end MindArch

namespace MindArch

/-- **C6** (corrected claim): for every triple store and unit `x`,
`find_path(x, x, max_depth)` returns the empty path whenever
`max_depth ≥ 1` — the equality check happens at dequeue time, inside the
depth-budgeted loop. -/
theorem find_path_self_some (db : List SemanticTriple) (x d : Nat) (h : 1 ≤ d) :
    find_path db x x d = some [] := by
  obtain ⟨m, rfl⟩ : ∃ m, d = m + 1 := ⟨d - 1, by omega⟩
  simp [find_path, findPathAux, runLevel]

/-- Witness for `find_path_self_some` at a concrete store and depth. -/
theorem find_path_self_some_witness :
    1 ≤ 3 ∧ find_path chainDb 7 7 3 = some [] :=
  ⟨by decide, find_path_self_some chainDb 7 3 (by decide)⟩

/-- **C6** counterexample to the claim as stated: unit 1 exists in the
store, yet `find_path(1, 1, max_depth=0)` returns "not found" rather than
the empty path, because the `while queue and max_depth > 0` loop never
runs. -/
theorem find_path_self_depth0_counterexample :
    (unitById chainState.units 1).isSome ∧ find_path chainState.triples 1 1 0 = none := by
  decide

/-- **C1** counterexample to the claim as stated: on the chain
`U1→U2→U3→U4`, `find_path(U1, U4, max_depth=3)` returns "not found" —
reaching a node at distance `d` requires a budget of `d + 1` levels because
the target test happens at dequeue time.  With `max_depth = 4` the 3-step
outgoing path is returned. -/
theorem find_path_chain_counterexample :
    find_path chainDb 1 4 3 = none ∧
    find_path chainDb 1 4 4 =
      some [⟨11, .outgoing⟩, ⟨12, .outgoing⟩, ⟨13, .outgoing⟩] := by
  decide

/-- **C10** (corrected claim): segmenting the empty text yields exactly one
chunk, the empty string, for every chunk-size limit — the size guard
`len(text) <= max_chunk_size` returns `[text]`. -/
theorem splitText_empty (m : Nat) : splitText "" m = [""] := by
  simp [splitText]

/-- **C10** counterexample to the claim as stated: the empty text yields the
one-element chunk list `[""]`, not the empty list. -/
theorem splitText_empty_counterexample :
    splitText "" = [""] ∧ ([""] : List String) ≠ [] := by
  constructor
  · decide
  · decide

/-- **C8** (code bug): deduplicating two same-titled candidates sets the
superseded representative's `status["is_duplicate"]` to `False`, not
`True` — the block under the "mark as duplicate" comment initialises the
flag to `False` and nothing ever sets it to `True`. -/
theorem dedup_marks_duplicate_false :
    deduplicateUnits [{ title := "alpha", content := "xx" }, { title := "alpha", content := "x" }]
      = [{ title := "alpha", content := "xx", isDuplicate := some false }] := by
  decide

/-- A list is a prefix of itself (`List.isPrefixOf`). -/
theorem isPrefixOf_self (l : List Char) : l.isPrefixOf l = true := by
  induction l with
  | nil => rfl
  | cons c cs ih => simp [List.isPrefixOf_cons₂, ih]

/-- Python `s in s` is true: every list is a substring of itself. -/
theorem isSubstrB_self (l : List Char) : isSubstrB l l = true := by
  cases l with
  | nil => rfl
  | cons c cs =>
    simp only [isSubstrB, List.any_eq_true]
    exact ⟨c :: cs, by simp [List.tails], by simp [isPrefixOf_self]⟩

/-- A title always matches itself in the dedup similarity test. -/
theorem titlesMatch_refl (s : String) : titlesMatch s s = true := by
  simp [titlesMatch, isSubstrB_self]

/-- **C7** (corrected claim): for a candidate list consisting of exactly two
units whose non-empty titles agree case-insensitively, deduplication emits
a single representative whose content is the longer of the two (the first
unit's content on ties). -/
theorem dedup_pair_keeps_longer (A B : CandidateUnit)
    (hA : strLower A.title ≠ "") (hEq : strLower B.title = strLower A.title) :
    (deduplicateUnits [A, B]).map (fun u => u.content) =
      [if A.content.length < B.content.length then B.content else A.content] := by
  by_cases hc : A.content.length < B.content.length <;>
    simp [deduplicateUnits, dedupGo, hA, hEq, findSimilarIdx, titlesMatch_refl, hc, List.getD]

/-- Witness for `dedup_pair_keeps_longer` on the pair "Foo"/"foo". -/
theorem dedup_pair_keeps_longer_witness :
    (strLower c7A.title ≠ "") ∧ (strLower c7B.title = strLower c7A.title) ∧
    (deduplicateUnits [c7A, c7B]).map (fun u => u.content) =
      [if c7A.content.length < c7B.content.length then c7B.content else c7A.content] :=
  ⟨by decide, by decide, dedup_pair_keeps_longer c7A c7B (by decide) (by decide)⟩

/-- **C7** counterexample to the claim as stated: (i) two candidates with
equal (empty) titles are both emitted — no merge happens, because an
untitled candidate bypasses deduplication; (ii) in a list with a third
unit "x abc" whose title contains theirs, both "abc" candidates merge into
that unit's slot and the surviving content is the third unit's, not the
longer of the two. -/
theorem dedup_claim_counterexample :
    (deduplicateUnits [{ title := "", content := "a" }, { title := "", content := "bb" }]).length
        = 2 ∧
    (deduplicateUnits [{ title := "x abc", content := "cccccccccc" },
        { title := "abc", content := "a" }, { title := "abc", content := "bb" }]).map
          (fun u => u.content)
      = ["cccccccccc"] := by
  constructor
  · decide
  · decide

/-- **C3** (corrected claim): when the triple (s, p, o) already exists *and*
both endpoint units still exist (with the data passing validation), create
returns a "duplicate" result carrying the stored triple's id and leaves the
whole store state — records and counters — unchanged. -/
theorem tripleCreate_duplicate (st : AppState) (d : TripleData) (s o : Nat) (p : String)
    (now : Nat)
    (hs : d.subjectId = some s) (hp : d.predicate = some p) (ho : d.objectId = some o)
    (hvalid : validateTripleData d = true)
    (hsu : (unitById st.units s).isSome) (hou : (unitById st.units o).isSome)
    (hex : ∃ t ∈ st.triples, t.subjectId = s ∧ t.predicate = p ∧ t.objectId = o) :
    ∃ t0 ∈ st.triples, t0.subjectId = s ∧ t0.predicate = p ∧ t0.objectId = o ∧
      tripleServiceCreate st d now = (.duplicate t0.id, st) := by
  have hf : ∃ t0, findDuplicate st.triples s p o = some t0 := by
    unfold findDuplicate
    cases hfind : st.triples.find?
        (fun t => decide (t.subjectId = s ∧ t.predicate = p ∧ t.objectId = o)) with
    | some t0 => exact ⟨t0, rfl⟩
    | none =>
      obtain ⟨t, ht, h1, h2, h3⟩ := hex
      have hn := List.find?_eq_none.mp hfind t ht
      simp [h1, h2, h3] at hn
  obtain ⟨t0, ht0⟩ := hf
  have ht0mem : t0 ∈ st.triples := List.mem_of_find?_eq_some ht0
  have ht0p := List.find?_some ht0
  simp only [decide_eq_true_eq] at ht0p
  obtain ⟨h1, h2, h3⟩ := ht0p
  obtain ⟨us, hus⟩ := Option.isSome_iff_exists.mp hsu
  obtain ⟨uo, huo⟩ := Option.isSome_iff_exists.mp hou
  refine ⟨t0, ht0mem, h1, h2, h3, ?_⟩
  unfold tripleServiceCreate
  simp [hvalid, hs, hp, ho, hus, huo, ht0]

/-- Witness for `tripleCreate_duplicate` on a store already holding
(1, "causes", 2). -/
theorem tripleCreate_duplicate_witness :
    (sampleTripleData.subjectId = some 1) ∧ (sampleTripleData.predicate = some "causes") ∧
    (sampleTripleData.objectId = some 2) ∧ (validateTripleData sampleTripleData = true) ∧
    (unitById dupTripleState.units 1).isSome ∧ (unitById dupTripleState.units 2).isSome ∧
    (∃ t ∈ dupTripleState.triples, t.subjectId = 1 ∧ t.predicate = "causes" ∧ t.objectId = 2) ∧
    (∃ t0 ∈ dupTripleState.triples, t0.subjectId = 1 ∧ t0.predicate = "causes" ∧
      t0.objectId = 2 ∧
      tripleServiceCreate dupTripleState sampleTripleData 9 = (.duplicate t0.id, dupTripleState)) :=
  ⟨by decide, by decide, by decide, by decide, by decide, by decide, by decide,
   tripleCreate_duplicate dupTripleState sampleTripleData 1 2 "causes" 9
     (by decide) (by decide) (by decide) (by decide) (by decide) (by decide) (by decide)⟩

/-- **C3** counterexample to the claim as stated: the triple (1, "causes", 2)
exists, but unit 1 has been deleted from the unit store, so create reports
"subject or object unit missing" instead of the "duplicate" status. -/
theorem tripleCreate_orphan_counterexample :
    (∃ t ∈ orphanTripleState.triples,
      t.subjectId = 1 ∧ t.predicate = "causes" ∧ t.objectId = 2) ∧
    tripleServiceCreate orphanTripleState sampleTripleData 9 =
      (.error "主语或宾语单元不存在", orphanTripleState) := by
  constructor
  · decide
  · decide

/-- **C2** (code bug, evaluated at the failing input): creating the triple
(1, "causes", 2) on a store where both units have zero relation counts
reports success, yet leaves `metrics.outgoing_relations` of the subject and
`metrics.incoming_relations` of the object at 0 — the `{"$inc": ...}`
payload is wrapped in `$set` by `KnowledgeUnitRepository.update`, where it
is not an increment (real MongoDB rejects the dollar-prefixed path
outright).  The subsequent delete likewise reports success without
decrementing anything. -/
theorem tripleCreate_counters_unchanged :
    (tripleServiceCreate twoUnitState sampleTripleData 9).1 = .success 100 ∧
    ((tripleServiceCreate twoUnitState sampleTripleData 9).2.units.map
      (fun u => (u.id, u.metrics.outgoingRelations, u.metrics.incomingRelations)))
      = [(1, 0, 0), (2, 0, 0)] ∧
    (tripleServiceDelete (tripleServiceCreate twoUnitState sampleTripleData 9).2 100 10).1
      = .success 1 ∧
    ((tripleServiceDelete (tripleServiceCreate twoUnitState sampleTripleData 9).2 100 10).2.units.map
      (fun u => (u.id, u.metrics.outgoingRelations, u.metrics.incomingRelations)))
      = [(1, 0, 0), (2, 0, 0)] := by
  refine ⟨by decide, by decide, by decide, by decide⟩

/-- **C9** (corrected claim, triple side): a triple batch with at least one
valid entry is never aborted by invalid entries — they are skipped and
counted, and exactly the valid entries are inserted and reported. -/
theorem tripleBulkCreate_partial (st : AppState) (batch : List TripleData) (now : Nat)
    (h : batch.filter validateTripleData ≠ []) :
    ∃ stOut,
      tripleServiceBulkCreate st batch now =
        (.success { created := (batch.filter validateTripleData).length,
                    skipped := batch.length - (batch.filter validateTripleData).length,
                    tripleIds := (tripleObjectsFrom st.nextId (batch.filter validateTripleData)
                      now).map (fun t => t.id) },
         stOut) ∧
      stOut.triples = st.triples ++ tripleObjectsFrom st.nextId
        (batch.filter validateTripleData) now := by
  have hne : (batch.filter validateTripleData).isEmpty = false := by
    cases hf : batch.filter validateTripleData with
    | nil => exact absurd hf h
    | cons a l => rfl
  unfold tripleServiceBulkCreate
  simp [hne, tripleObjectsFrom]

/-- Witness for `tripleBulkCreate_partial` on a two-entry batch with one
invalid entry. -/
theorem tripleBulkCreate_partial_witness :
    (mixedTripleBatch.filter validateTripleData ≠ []) ∧
    (∃ stOut,
      tripleServiceBulkCreate twoUnitState mixedTripleBatch 4 =
        (.success { created := (mixedTripleBatch.filter validateTripleData).length,
                    skipped := mixedTripleBatch.length -
                      (mixedTripleBatch.filter validateTripleData).length,
                    tripleIds := (tripleObjectsFrom twoUnitState.nextId
                      (mixedTripleBatch.filter validateTripleData) 4).map (fun t => t.id) },
         stOut) ∧
      stOut.triples = twoUnitState.triples ++ tripleObjectsFrom twoUnitState.nextId
        (mixedTripleBatch.filter validateTripleData) 4) :=
  ⟨by decide, tripleBulkCreate_partial twoUnitState mixedTripleBatch 4 (by decide)⟩

/-- **C9** counterexample to the claim as stated: a unit batch whose first
entry lacks a title raises `ValueError` ("知识单元必须有标题"), aborting the
whole batch — the valid second unit is never inserted. -/
theorem unitBulkCreate_abort_counterexample :
    unitServiceBulkCreate {} [{ title := none, content := "c" }, { title := some "ok" }] 3
      = .error "知识单元必须有标题" := rfl

/-- Unfolding one step of `addToSet`. -/
theorem addToSet_step (incl : List Nat) (i : Nat) (ids : List Nat) :
    addToSet incl (i :: ids) = addToSet (if i ∈ incl then incl else incl ++ [i]) ids := by
  simp [addToSet, List.foldl]

/-- `$addToSet $each` grows the list by exactly the distinct ids not already
present — for a duplicate-free id list. -/
theorem addToSet_length (ids : List Nat) (hids : ids.Nodup) :
    ∀ incl : List Nat,
      (addToSet incl ids).length = incl.length + (ids.filter (fun i => i ∉ incl)).length := by
  induction ids with
  | nil => intro incl; simp [addToSet]
  | cons i ids ih =>
    intro incl
    have hnot : i ∉ ids := (List.nodup_cons.mp hids).1
    have hids' : ids.Nodup := (List.nodup_cons.mp hids).2
    rw [addToSet_step]
    by_cases hmem : i ∈ incl
    · simp only [if_pos hmem]
      rw [ih hids' incl]
      simp [List.filter_cons, hmem]
    · simp only [if_neg hmem]
      rw [ih hids' (incl ++ [i])]
      have hcongr : ids.filter (fun x => decide (x ∉ incl ++ [i])) =
          ids.filter (fun x => decide (x ∉ incl)) := by
        apply List.filter_congr
        intro x hx
        have hxi : x ≠ i := fun h => hnot (h ▸ hx)
        simp [List.mem_append, hxi]
      simp only [hcongr]
      simp [List.filter_cons, hmem]
      omega

/-- `$addToSet` never introduces duplicates. -/
theorem addToSet_nodup (ids : List Nat) :
    ∀ incl : List Nat, incl.Nodup → (addToSet incl ids).Nodup := by
  induction ids with
  | nil => intro incl h; simpa [addToSet] using h
  | cons i ids ih =>
    intro incl h
    rw [addToSet_step]
    by_cases hmem : i ∈ incl
    · simp only [if_pos hmem]; exact ih incl h
    · simp only [if_neg hmem]
      exact ih (incl ++ [i]) (by simp [List.nodup_append, h, hmem])

/-- After replacing the first graph with a given id, looking that id up
finds the replacement. -/
theorem find?_updateFirstGraph (graphs : List KnowledgeGraph) (gid : Nat)
    (g g' : KnowledgeGraph) (hfind : graphs.find? (fun x => x.id = gid) = some g)
    (hid : g'.id = gid) :
    (updateFirstGraph graphs gid g').find? (fun x => x.id = gid) = some g' := by
  induction graphs with
  | nil => simp [List.find?] at hfind
  | cons a l ih =>
    by_cases ha : a.id = gid
    · simp [updateFirstGraph, ha, List.find?, hid]
    · simp only [List.find?, ha, decide_False] at hfind
      simp [updateFirstGraph, ha, List.find?]
      exact ih hfind

/-- Whatever lookup finds after the replacement is the replacement. -/
theorem updateFirstGraph_found (graphs : List KnowledgeGraph) (gid : Nat)
    (g gN g' : KnowledgeGraph) (hfind : graphs.find? (fun x => x.id = gid) = some g)
    (hg' : (updateFirstGraph graphs gid gN).find? (fun x => x.id = gid) = some g')
    (hid : gN.id = gid) :
    g' = gN := by
  have h := find?_updateFirstGraph graphs gid g gN hfind hid
  rw [h] at hg'
  injection hg' with h2
  exact h2.symm

/-- `add_units` preserves the counting invariant for duplicate-free id
lists. -/
theorem graphAddUnits_counted (st : AppState) (gid : Nat) (ids : List Nat) (now : Nat)
    (g : KnowledgeGraph) (hfind : st.graphs.find? (fun x => x.id = gid) = some g)
    (hg : GraphCounted g) (hids : ids.Nodup) :
    ∀ g', ((graphAddUnits st gid ids now).2).graphs.find? (fun x => x.id = gid) = some g' →
      GraphCounted g' := by
  intro g' hg'
  have hgid : g.id = gid := by
    have := List.find?_some hfind
    simpa using this
  unfold graphAddUnits at hg'
  rw [hfind] at hg'
  by_cases hempty : (ids.filter (fun i => i ∉ g.includedUnits)).isEmpty
  · simp only [hempty, if_true] at hg'
    rw [hfind] at hg'
    injection hg' with h
    exact h ▸ hg
  · simp only [hempty, if_false, Bool.false_eq_true] at hg'
    have hEq := updateFirstGraph_found st.graphs gid g _ g' hfind hg' hgid
    subst hEq
    obtain ⟨he, hr, hnu, hnt⟩ := hg
    refine ⟨?_, by simpa using hr, addToSet_nodup ids _ hnu, by simpa using hnt⟩
    show g.entityCount + _ = _
    rw [addToSet_length ids hids g.includedUnits]
    push_cast
    omega

/-- `add_triples` — including the automatic inclusion of the endpoint units
of the added triples — preserves the counting invariant for duplicate-free
id lists. -/
theorem graphAddTriples_counted (st : AppState) (gid : Nat) (ids : List Nat) (now : Nat)
    (g : KnowledgeGraph) (hfind : st.graphs.find? (fun x => x.id = gid) = some g)
    (hg : GraphCounted g) (hids : ids.Nodup) :
    ∀ g', ((graphAddTriples st gid ids now).2).graphs.find? (fun x => x.id = gid) = some g' →
      GraphCounted g' := by
  intro g' hg'
  have hgid : g.id = gid := by
    have := List.find?_some hfind
    simpa using this
  unfold graphAddTriples at hg'
  rw [hfind] at hg'
  by_cases hempty : (ids.filter (fun i => i ∉ g.includedTriples)).isEmpty
  · simp only [hempty, if_true] at hg'
    rw [hfind] at hg'
    injection hg' with h
    exact h ▸ hg
  · simp only [hempty, if_false, Bool.false_eq_true] at hg'
    have hg1counted :
        GraphCounted
          { g with includedTriples := addToSet g.includedTriples ids,
                   relationCount := g.relationCount +
                     (ids.filter (fun i => i ∉ g.includedTriples)).length,
                   updatedAt := now } := by
      obtain ⟨he, hr, hnu, hnt⟩ := hg
      refine ⟨by simpa using he, ?_, by simpa using hnu, addToSet_nodup ids _ hnt⟩
      show g.relationCount + _ = _
      rw [addToSet_length ids hids g.includedTriples]
      push_cast
      omega
    by_cases hend : (dedupNat ((st.triples.filter (fun t => t.id ∈ ids)).foldl
        (fun acc t => acc ++ [t.subjectId, t.objectId]) [])).isEmpty
    · simp only [hend, if_true] at hg'
      have hEq := updateFirstGraph_found st.graphs gid g _ g' hfind hg' hgid
      subst hEq
      exact hg1counted
    · simp only [hend, if_false, Bool.false_eq_true] at hg'
      have hfind1 := find?_updateFirstGraph st.graphs gid g
        ({ g with includedTriples := addToSet g.includedTriples ids,
                  relationCount := g.relationCount +
                    (ids.filter (fun i => i ∉ g.includedTriples)).length,
                  updatedAt := now }) hfind hgid
      exact graphAddUnits_counted _ gid _ now _ hfind1 hg1counted
        (addToSet_nodup _ [] List.nodup_nil) g' hg'

/-- **C4** (corrected claim): for id lists without internal repetitions,
both `add_units` and `add_triples` keep `entity_count` and `relation_count`
equal to the sizes of `included_units` and `included_triples`. -/
theorem graphAdd_preserves_counts (st : AppState) (gid : Nat) (ids : List Nat) (now : Nat)
    (g : KnowledgeGraph) (hfind : st.graphs.find? (fun x => x.id = gid) = some g)
    (hg : GraphCounted g) (hids : ids.Nodup) :
    (∀ g', ((graphAddUnits st gid ids now).2).graphs.find? (fun x => x.id = gid) = some g' →
      GraphCounted g') ∧
    (∀ g', ((graphAddTriples st gid ids now).2).graphs.find? (fun x => x.id = gid) = some g' →
      GraphCounted g') :=
  ⟨graphAddUnits_counted st gid ids now g hfind hg hids,
   graphAddTriples_counted st gid ids now g hfind hg hids⟩

/-- Witness for `graphAdd_preserves_counts` on an empty graph and the id
list `[1, 2]`. -/
theorem graphAdd_preserves_counts_witness :
    (emptyGraphState.graphs.find? (fun x => x.id = 70) = some { id := 70, name := "g" }) ∧
    GraphCounted { id := 70, name := "g" } ∧ ([1, 2] : List Nat).Nodup ∧
    ((∀ g', ((graphAddUnits emptyGraphState 70 [1, 2] 0).2).graphs.find?
        (fun x => x.id = 70) = some g' → GraphCounted g') ∧
     (∀ g', ((graphAddTriples emptyGraphState 70 [1, 2] 0).2).graphs.find?
        (fun x => x.id = 70) = some g' → GraphCounted g')) :=
  ⟨by decide, ⟨by decide, by decide, by decide, by decide⟩, by decide,
   graphAdd_preserves_counts emptyGraphState 70 [1, 2] 0 { id := 70, name := "g" }
     (by decide) ⟨by decide, by decide, by decide, by decide⟩ (by decide)⟩

/-- **C4** counterexample to the claim as stated: adding the repeated id
list `[1, 1]` to an empty graph stores `included_units = [1]` but counts
`entity_count = 2` — each occurrence of a not-yet-included id is counted,
while `$addToSet` stores it once. -/
theorem addUnits_dup_ids_counterexample :
    ((graphAddUnits emptyGraphState 70 [1, 1] 0).2.graphs.find? (fun g => g.id = 70)).map
      (fun g => (g.entityCount, g.includedUnits.length)) = some (2, 1) := by
  decide

/-- Unfolding one step of the per-triple loop of the visual BFS. -/
theorem processVisualTriples_cons (vT : List Nat) (edges : List (Nat × VisualEdge))
    (queue : List (Nat × Nat)) (vU : List Nat) (cd : Nat) (t : SemanticTriple)
    (ts : List SemanticTriple) (far : SemanticTriple → Nat) :
    processVisualTriples vT edges queue vU cd (t :: ts) far =
      if t.id ∈ vT then processVisualTriples vT edges queue vU cd ts far
      else
        processVisualTriples (t.id :: vT)
          (if edges.any (fun e => e.1 = t.id) then edges else edges ++ [(t.id, mkVisualEdge t)])
          (if far t ∈ vU then queue else queue ++ [(far t, cd + 1)]) vU cd ts far := by
  by_cases h : t.id ∈ vT <;> simp [processVisualTriples, List.foldl_cons, h]

/-- The per-triple loop only emits edges for included stored triples and
only enqueues roots or endpoints of included triples. -/
theorem processVisualTriples_inv (st : AppState) (g : KnowledgeGraph) (R : List Nat)
    (cd : Nat) (far : SemanticTriple → Nat) (vU : List Nat)
    (hfar : ∀ t, far t = t.subjectId ∨ far t = t.objectId) :
    ∀ (ts : List SemanticTriple) (vT : List Nat) (edges : List (Nat × VisualEdge))
      (queue : List (Nat × Nat)),
      (∀ t ∈ ts, t ∈ st.triples ∧ t.id ∈ g.includedTriples) →
      (∀ p ∈ edges, EdgeOk st g p.2) →
      (∀ q ∈ queue, QueueOk st g R q.1) →
      (∀ p ∈ (processVisualTriples vT edges queue vU cd ts far).2.1, EdgeOk st g p.2) ∧
      (∀ q ∈ (processVisualTriples vT edges queue vU cd ts far).2.2, QueueOk st g R q.1) := by
  intro ts
  induction ts with
  | nil =>
    intro vT edges queue _ he hq
    exact ⟨he, hq⟩
  | cons t ts ih =>
    intro vT edges queue hts he hq
    have ht := hts t (List.mem_cons_self t ts)
    have hts' : ∀ x ∈ ts, x ∈ st.triples ∧ x.id ∈ g.includedTriples :=
      fun x hx => hts x (List.mem_cons_of_mem t hx)
    rw [processVisualTriples_cons]
    by_cases hvt : t.id ∈ vT
    · simp only [if_pos hvt]
      exact ih vT edges queue hts' he hq
    · simp only [if_neg hvt]
      apply ih _ _ _ hts'
      · intro p hp
        by_cases hin : edges.any (fun e => e.1 = t.id)
        · rw [if_pos hin] at hp; exact he p hp
        · rw [if_neg hin] at hp
          rcases List.mem_append.mp hp with h1 | h2
          · exact he p h1
          · have : p = (t.id, mkVisualEdge t) := by simpa using h2
            subst this
            exact ⟨ht.2, t, ht.1, rfl, rfl, rfl, rfl⟩
      · intro q hquu
        by_cases hin : far t ∈ vU
        · rw [if_pos hin] at hquu; exact hq q hquu
        · rw [if_neg hin] at hquu
          rcases List.mem_append.mp hquu with h1 | h2
          · exact hq q h1
          · have : q = (far t, cd + 1) := by simpa using h2
            subst this
            exact Or.inr ⟨t, ht.1, ht.2, hfar t⟩

/-- The visual BFS loop preserves node and edge soundness for every step
budget. -/
theorem visualLoop_inv (st : AppState) (g : KnowledgeGraph) (depth : Nat) (R : List Nat) :
    ∀ (fuel : Nat) (queue : List (Nat × Nat)) (vU vT : List Nat)
      (nodes : List (Nat × VisualNode)) (edges : List (Nat × VisualEdge)),
      (∀ q ∈ queue, QueueOk st g R q.1) →
      (∀ p ∈ nodes, NodeOk st g R p.2) →
      (∀ p ∈ edges, EdgeOk st g p.2) →
      (∀ p ∈ (visualLoop st g depth fuel queue vU vT nodes edges).1, NodeOk st g R p.2) ∧
      (∀ p ∈ (visualLoop st g depth fuel queue vU vT nodes edges).2, EdgeOk st g p.2) := by
  intro fuel
  induction fuel with
  | zero =>
    intro queue vU vT nodes edges _ hn he
    cases queue with
    | nil => exact ⟨hn, he⟩
    | cons a rest => exact ⟨hn, he⟩
  | succ fuel ih =>
    intro queue vU vT nodes edges hq hn he
    cases queue with
    | nil => exact ⟨hn, he⟩
    | cons head rest =>
      obtain ⟨uid, cd⟩ := head
      have hqr : ∀ q ∈ rest, QueueOk st g R q.1 := fun q hh => hq q (List.mem_cons_of_mem _ hh)
      have huid : QueueOk st g R uid := hq (uid, cd) (List.mem_cons_self _ _)
      simp only [visualLoop]
      by_cases h1 : cd > depth
      · simp only [if_pos h1]
        exact ih rest vU vT nodes edges hqr hn he
      · simp only [if_neg h1]
        by_cases h2 : uid ∈ vU
        · simp only [if_pos h2]
          exact ih rest vU vT nodes edges hqr hn he
        · simp only [if_neg h2]
          cases hfind : st.units.find? (fun u => u.id = uid) with
          | none =>
            exact ih rest (uid :: vU) vT nodes edges hqr hn he
          | some u =>
            have humem : u ∈ st.units := List.mem_of_find?_eq_some hfind
            have huid2 : u.id = uid := by
              have := List.find?_some hfind
              simpa using this
            have hn' : ∀ p ∈ (if nodes.any (fun n => n.1 = uid) then nodes
                else nodes ++ [(uid, mkVisualNode u)]), NodeOk st g R p.2 := by
              by_cases hany : nodes.any (fun n => n.1 = uid)
              · rw [if_pos hany]; exact hn
              · rw [if_neg hany]
                intro p hp
                rcases List.mem_append.mp hp with hp1 | hp2
                · exact hn p hp1
                · have : p = (uid, mkVisualNode u) := by simpa using hp2
                  subst this
                  exact ⟨⟨u, humem, rfl, rfl⟩, by simpa [mkVisualNode, huid2] using huid⟩
            by_cases h3 : cd = depth
            · simp only [if_pos h3]
              exact ih rest (uid :: vU) vT _ edges hqr hn' he
            · simp only [if_neg h3]
              have hts1 : ∀ t ∈ st.triples.filter
                  (fun t => decide (t.subjectId = uid ∧ t.id ∈ g.includedTriples)),
                  t ∈ st.triples ∧ t.id ∈ g.includedTriples := by
                intro t ht
                have h := List.mem_filter.mp ht
                refine ⟨h.1, ?_⟩
                have := h.2
                simp only [decide_eq_true_eq] at this
                exact this.2
              have hts2 : ∀ t ∈ st.triples.filter
                  (fun t => decide (t.objectId = uid ∧ t.id ∈ g.includedTriples)),
                  t ∈ st.triples ∧ t.id ∈ g.includedTriples := by
                intro t ht
                have h := List.mem_filter.mp ht
                refine ⟨h.1, ?_⟩
                have := h.2
                simp only [decide_eq_true_eq] at this
                exact this.2
              obtain ⟨he1, hq1⟩ := processVisualTriples_inv st g R cd (fun t => t.objectId)
                (uid :: vU) (fun t => Or.inr rfl) _ vT edges rest hts1 he hqr
              obtain ⟨he2, hq2⟩ := processVisualTriples_inv st g R cd (fun t => t.subjectId)
                (uid :: vU) (fun t => Or.inl rfl) _ _ _ _ hts2 he1 hq1
              exact ih _ (uid :: vU) _ _ _ hq2 hn' he2

/-- **C5** (corrected claim): in every successful `get_visual_data` result,
every edge corresponds to a stored triple included in the graph's
`included_triples`, and every node corresponds to a stored unit that is
either a selected root or an endpoint of an included triple.  (Nodes are
*not* restricted to `included_units` — see the counterexample.) -/
theorem getVisualData_safety (fuel : Nat) (st : AppState) (gid depth : Nat)
    (rootIds : Option (List Nat)) (g : KnowledgeGraph) (d : VisualData)
    (hfind : st.graphs.find? (fun x => x.id = gid) = some g)
    (hres : getVisualData fuel st gid depth rootIds = .success d) :
    (∀ e ∈ d.edges, EdgeOk st g e) ∧
    (∀ n ∈ d.nodes, NodeOk st g (selectRoots st g rootIds) n) := by
  unfold getVisualData at hres
  rw [hfind] at hres
  by_cases hroots : (selectRoots st g rootIds).isEmpty
  · simp [hroots] at hres
  · simp only [hroots, if_false, Bool.false_eq_true] at hres
    injection hres with h
    subst h
    have hq0 : ∀ q ∈ (selectRoots st g rootIds).map (fun x => (x, 0)),
        QueueOk st g (selectRoots st g rootIds) q.1 := by
      intro q hqm
      obtain ⟨x, hx, hxq⟩ := List.mem_map.mp hqm
      subst hxq
      exact Or.inl hx
    obtain ⟨hnodes, hedges⟩ := visualLoop_inv st g depth (selectRoots st g rootIds) fuel
      ((selectRoots st g rootIds).map (fun x => (x, 0))) [] [] [] [] hq0
      (by intro p hp; cases hp) (by intro p hp; cases hp)
    constructor
    · intro e he
      obtain ⟨p, hp, hpe⟩ := List.mem_map.mp he
      exact hpe ▸ hedges p hp
    · intro n hn
      obtain ⟨p, hp, hpn⟩ := List.mem_map.mp hn
      exact hpn ▸ hnodes p hp

/-- Witness for `getVisualData_safety` at a concrete graph and root. -/
theorem getVisualData_safety_witness :
    (strayUnitState.graphs.find? (fun x => x.id = 80) = some { id := 80, name := "viz" }) ∧
    (getVisualData 5 strayUnitState 80 2 (some [9]) =
      .success { nodes := [{ id := 9, label := "stray", unitType := "note",
                             canonicalName := "", importance := 3 }],
                 edges := [], graphName := "viz", totalUnits := 1, totalRelations := 0,
                 depth := 2 }) ∧
    ((∀ e ∈ ({ nodes := [{ id := 9, label := "stray", unitType := "note",
                             canonicalName := "", importance := 3 }],
                 edges := [], graphName := "viz", totalUnits := 1, totalRelations := 0,
                 depth := 2 } : VisualData).edges,
        EdgeOk strayUnitState { id := 80, name := "viz" } e) ∧
     (∀ n ∈ ({ nodes := [{ id := 9, label := "stray", unitType := "note",
                             canonicalName := "", importance := 3 }],
                 edges := [], graphName := "viz", totalUnits := 1, totalRelations := 0,
                 depth := 2 } : VisualData).nodes,
        NodeOk strayUnitState { id := 80, name := "viz" }
          (selectRoots strayUnitState { id := 80, name := "viz" } (some [9])) n)) :=
  ⟨by decide, by decide,
   getVisualData_safety 5 strayUnitState 80 2 (some [9]) { id := 80, name := "viz" } _
     (by decide) (by decide)⟩

/-- **C5** counterexample to the claim as stated: rooting the traversal at
unit 9, which exists in the store but is *not* in the graph's (empty)
`included_units`, still produces a node for it. -/
theorem getVisualData_leak_counterexample :
    getVisualData 5 strayUnitState 80 2 (some [9]) =
      .success { nodes := [{ id := 9, label := "stray", unitType := "note",
                             canonicalName := "", importance := 3 }],
                 edges := [], graphName := "viz", totalUnits := 1, totalRelations := 0,
                 depth := 2 } ∧
    9 ∉ ((strayUnitState.graphs.find? (fun gg => gg.id = 80)).map
      (fun gg => gg.includedUnits)).getD [] := by
  constructor
  · decide
  · decide

/-- A zero-hop walk connects a node only to itself. -/
theorem reach_zero {db : List SemanticTriple} {u v : Nat} (h : ReachN db 0 u v) : u = v := by
  cases h
  rfl

/-- Extend a walk by one hop at the far end. -/
theorem reach_snoc {db : List SemanticTriple} {s u v : Nat} {n : Nat}
    (h : ReachN db n s u) (hadj : Adj db u v) : ReachN db (n + 1) s v := by
  induction h with
  | refl w => exact .step hadj (.refl v)
  | step hadj' h' ih => exact .step hadj' (ih hadj)

/-- Peel the last hop off a walk. -/
theorem reach_unsnoc {db : List SemanticTriple} {s w : Nat} {n : Nat}
    (h : ReachN db (n + 1) s w) : ∃ v, ReachN db n s v ∧ Adj db v w := by
  induction n generalizing s with
  | zero =>
    cases h with
    | step hadj h' =>
      cases reach_zero h'
      exact ⟨s, .refl s, by assumption⟩
  | succ n ih =>
    cases h with
    | step hadj h' =>
      obtain ⟨v, hv, hadj'⟩ := ih h'
      exact ⟨v, .step hadj hv, hadj'⟩

/-- A reachable node has a well-defined BFS distance. -/
theorem minReach_exists {db : List SemanticTriple} {s v : Nat} :
    ∀ n, ReachN db n s v → ∃ k, k ≤ n ∧ MinReach db s v k := by
  intro n
  induction n using Nat.strong_induction_on with
  | _ n ih =>
    intro hr
    by_cases h : ∀ j, j < n → ¬ ReachN db j s v
    · exact ⟨n, Nat.le_refl n, hr, h⟩
    · push_neg at h
      obtain ⟨j, hj, hrj⟩ := h
      obtain ⟨k, hk, hmk⟩ := ih j hj hrj
      exact ⟨k, Nat.le_trans hk (Nat.le_of_lt hj), hmk⟩

/-- A node at distance `k + 1` has a neighbour at distance `k`. -/
theorem minReach_pred {db : List SemanticTriple} {s v : Nat} {k : Nat}
    (h : MinReach db s v (k + 1)) : ∃ u, Adj db u v ∧ MinReach db s u k := by
  obtain ⟨hr, hmin⟩ := h
  obtain ⟨u, hru, hadj⟩ := reach_unsnoc hr
  refine ⟨u, hadj, hru, ?_⟩
  intro j hj hrj
  exact hmin (j + 1) (by omega) (reach_snoc hrj hadj)

/-- Below the distance of any node there is a node at every distance. -/
theorem minReach_exists_at {db : List SemanticTriple} {s : Nat} :
    ∀ (L : Nat) (v : Nat), MinReach db s v L → ∀ k, k ≤ L → ∃ u, MinReach db s u k := by
  intro L
  induction L with
  | zero =>
    intro v hm k hk
    exact ⟨v, Nat.le_zero.mp hk ▸ hm⟩
  | succ L ih =>
    intro v hm k hk
    by_cases hkk : k = L + 1
    · exact ⟨v, hkk ▸ hm⟩
    · obtain ⟨u, _, hmu⟩ := minReach_pred hm
      exact ih u hmu k (by omega)

/-- Insertion keeps exactly the old elements plus the new one. -/
theorem mem_insertByCreatedDesc (t x : SemanticTriple) (l : List SemanticTriple) :
    x ∈ insertByCreatedDesc t l ↔ x = t ∨ x ∈ l := by
  induction l with
  | nil => simp [insertByCreatedDesc]
  | cons a l ih =>
    by_cases h : a.createdAt > t.createdAt
    · simp [insertByCreatedDesc, h, ih]
      tauto
    · simp [insertByCreatedDesc, h]

/-- Insertion grows the length by one. -/
theorem length_insertByCreatedDesc (t : SemanticTriple) (l : List SemanticTriple) :
    (insertByCreatedDesc t l).length = l.length + 1 := by
  induction l with
  | nil => rfl
  | cons a l ih =>
    by_cases h : a.createdAt > t.createdAt
    · simp [insertByCreatedDesc, h, ih]
    · simp [insertByCreatedDesc, h]

/-- Sorting preserves membership. -/
theorem mem_sortByCreatedDesc (x : SemanticTriple) (l : List SemanticTriple) :
    x ∈ sortByCreatedDesc l ↔ x ∈ l := by
  induction l with
  | nil => simp [sortByCreatedDesc]
  | cons a l ih =>
    show x ∈ insertByCreatedDesc a (sortByCreatedDesc l) ↔ _
    rw [mem_insertByCreatedDesc]
    simp [ih]

/-- Sorting preserves length. -/
theorem length_sortByCreatedDesc (l : List SemanticTriple) :
    (sortByCreatedDesc l).length = l.length := by
  induction l with
  | nil => rfl
  | cons a l ih =>
    show (insertByCreatedDesc a (sortByCreatedDesc l)).length = _
    rw [length_insertByCreatedDesc, ih]
    rfl

/-- With at most 100 matching triples, the limited query is exhaustive. -/
theorem mem_findBySubject {db : List SemanticTriple} {u : Nat} (hdeg : DegreeBounded db)
    (t : SemanticTriple) : t ∈ findBySubject db u ↔ t ∈ db ∧ t.subjectId = u := by
  unfold findBySubject
  have hlen : (sortByCreatedDesc (db.filter (fun t => t.subjectId = u))).length ≤ 100 := by
    rw [length_sortByCreatedDesc]
    exact (hdeg u).1
  rw [List.take_of_length_le hlen, mem_sortByCreatedDesc]
  simp [List.mem_filter]

/-- With at most 100 matching triples, the limited query is exhaustive. -/
theorem mem_findByObject {db : List SemanticTriple} {u : Nat} (hdeg : DegreeBounded db)
    (t : SemanticTriple) : t ∈ findByObject db u ↔ t ∈ db ∧ t.objectId = u := by
  unfold findByObject
  have hlen : (sortByCreatedDesc (db.filter (fun t => t.objectId = u))).length ≤ 100 := by
    rw [length_sortByCreatedDesc]
    exact (hdeg u).2
  rw [List.take_of_length_le hlen, mem_sortByCreatedDesc]
  simp [List.mem_filter]

/-- Everything the query returns matches it (no degree bound needed). -/
theorem findBySubject_sub {db : List SemanticTriple} {u : Nat} {t : SemanticTriple}
    (h : t ∈ findBySubject db u) : t ∈ db ∧ t.subjectId = u := by
  unfold findBySubject at h
  have h2 := List.take_subset _ _ h
  rw [mem_sortByCreatedDesc] at h2
  simpa using List.mem_filter.mp h2

/-- Everything the query returns matches it (no degree bound needed). -/
theorem findByObject_sub {db : List SemanticTriple} {u : Nat} {t : SemanticTriple}
    (h : t ∈ findByObject db u) : t ∈ db ∧ t.objectId = u := by
  unfold findByObject at h
  have h2 := List.take_subset _ _ h
  rw [mem_sortByCreatedDesc] at h2
  simpa using List.mem_filter.mp h2

/-- An enqueued outgoing child is adjacent to the expanded unit. -/
theorem adj_of_expand_out {db : List SemanticTriple} {u : Nat} {visited : List Nat}
    {path : List PathStep} {e : PathEntry}
    (he : e ∈ expandChildren visited path (findBySubject db u) (fun t => t.objectId) .outgoing) :
    Adj db u e.1 := by
  obtain ⟨t, ht, hsome⟩ := List.mem_filterMap.mp he
  by_cases hvis : t.objectId ∈ visited
  · rw [if_pos hvis] at hsome; cases hsome
  · rw [if_neg hvis] at hsome
    injection hsome with h
    subst h
    obtain ⟨hmem, hsubj⟩ := findBySubject_sub ht
    exact ⟨t, hmem, Or.inl ⟨hsubj, rfl⟩⟩

/-- An enqueued incoming child is adjacent to the expanded unit. -/
theorem adj_of_expand_in {db : List SemanticTriple} {u : Nat} {visited : List Nat}
    {path : List PathStep} {e : PathEntry}
    (he : e ∈ expandChildren visited path (findByObject db u) (fun t => t.subjectId) .incoming) :
    Adj db u e.1 := by
  obtain ⟨t, ht, hsome⟩ := List.mem_filterMap.mp he
  by_cases hvis : t.subjectId ∈ visited
  · rw [if_pos hvis] at hsome; cases hsome
  · rw [if_neg hvis] at hsome
    injection hsome with h
    subst h
    obtain ⟨hmem, hobj⟩ := findByObject_sub ht
    exact ⟨t, hmem, Or.inr ⟨rfl, hobj⟩⟩

/-- An unvisited far end of a stored outgoing triple is enqueued. -/
theorem mem_expand_out {db : List SemanticTriple} {u v : Nat} {V' : List Nat}
    {q : List PathStep} {t : SemanticTriple} (hdeg : DegreeBounded db)
    (ht : t ∈ db) (hs : t.subjectId = u) (ho : t.objectId = v) (hv : v ∉ V') :
    (v, q ++ [⟨t.id, .outgoing⟩]) ∈
      expandChildren V' q (findBySubject db u) (fun t => t.objectId) .outgoing := by
  apply List.mem_filterMap.mpr
  refine ⟨t, (mem_findBySubject hdeg t).mpr ⟨ht, hs⟩, ?_⟩
  simp only [ho, if_neg hv]

/-- An unvisited far end of a stored incoming triple is enqueued. -/
theorem mem_expand_in {db : List SemanticTriple} {u v : Nat} {V' : List Nat}
    {q : List PathStep} {t : SemanticTriple} (hdeg : DegreeBounded db)
    (ht : t ∈ db) (hs : t.subjectId = v) (ho : t.objectId = u) (hv : v ∉ V') :
    (v, q ++ [⟨t.id, .incoming⟩]) ∈
      expandChildren V' q (findByObject db u) (fun t => t.subjectId) .incoming := by
  apply List.mem_filterMap.mpr
  refine ⟨t, (mem_findByObject hdeg t).mpr ⟨ht, ho⟩, ?_⟩
  simp only [hs, if_neg hv]

/-- Entries of the next level are reachable in exactly `k + 1` hops. -/
theorem runLevel_next_reach (db : List SemanticTriple) (endId start k : Nat) :
    ∀ (Lv : List PathEntry) (V : List Nat) (N : List PathEntry) (next : List PathEntry)
      (vis' : List Nat),
      (∀ e ∈ Lv, ReachN db k start e.1) →
      (∀ e ∈ N, ReachN db (k + 1) start e.1) →
      runLevel db endId Lv V N = .cont next vis' →
      ∀ e ∈ next, ReachN db (k + 1) start e.1 := by
  intro Lv
  induction Lv with
  | nil =>
    intro V N next vis' _ hN hrun
    simp only [runLevel] at hrun
    injection hrun with h1 h2
    subst h1
    exact hN
  | cons head rest ih =>
    obtain ⟨u, path⟩ := head
    intro V N next vis' hLv hN hrun
    have hrest : ∀ e ∈ rest, ReachN db k start e.1 :=
      fun e he => hLv e (List.mem_cons_of_mem _ he)
    have hu : ReachN db k start u := hLv (u, path) (List.mem_cons_self _ _)
    simp only [runLevel] at hrun
    by_cases h1 : u ∈ V
    · rw [if_pos h1] at hrun
      exact ih V N next vis' hrest hN hrun
    · rw [if_neg h1] at hrun
      by_cases h2 : u = endId
      · rw [if_pos h2] at hrun; cases hrun
      · rw [if_neg h2] at hrun
        apply ih _ _ _ _ hrest ?_ hrun
        intro e he
        rcases List.mem_append.mp he with he1 | he2
        · rcases List.mem_append.mp he1 with he3 | he4
          · exact hN e he3
          · exact reach_snoc hu (adj_of_expand_out he4)
        · exact reach_snoc hu (adj_of_expand_in he2)

/-- New visited nodes were either already visited or dequeued this level. -/
theorem runLevel_visited (db : List SemanticTriple) (endId : Nat) :
    ∀ (Lv : List PathEntry) (V : List Nat) (N : List PathEntry) (next : List PathEntry)
      (vis' : List Nat),
      runLevel db endId Lv V N = .cont next vis' →
      ∀ w ∈ vis', w ∈ V ∨ ∃ p, (w, p) ∈ Lv := by
  intro Lv
  induction Lv with
  | nil =>
    intro V N next vis' hrun w hw
    simp only [runLevel] at hrun
    injection hrun with h1 h2
    subst h2
    exact Or.inl hw
  | cons head rest ih =>
    obtain ⟨u, path⟩ := head
    intro V N next vis' hrun w hw
    simp only [runLevel] at hrun
    by_cases h1 : u ∈ V
    · rw [if_pos h1] at hrun
      rcases ih V N next vis' hrun w hw with h | ⟨p, hp⟩
      · exact Or.inl h
      · exact Or.inr ⟨p, List.mem_cons_of_mem _ hp⟩
    · rw [if_neg h1] at hrun
      by_cases h2 : u = endId
      · rw [if_pos h2] at hrun; cases hrun
      · rw [if_neg h2] at hrun
        rcases ih (u :: V) _ next vis' hrun w hw with h | ⟨p, hp⟩
        · rcases List.mem_cons.mp h with h3 | h4
          · exact Or.inr ⟨path, h3 ▸ List.mem_cons_self _ _⟩
          · exact Or.inl h4
        · exact Or.inr ⟨p, List.mem_cons_of_mem _ hp⟩

/-- A level containing an unvisited entry for the target returns a path. -/
theorem runLevel_finds (db : List SemanticTriple) (endId : Nat) :
    ∀ (Lv : List PathEntry) (V : List Nat) (N : List PathEntry),
      (∃ p, (endId, p) ∈ Lv) → endId ∉ V →
      ∃ q, runLevel db endId Lv V N = .found q := by
  intro Lv
  induction Lv with
  | nil =>
    intro V N hex _
    obtain ⟨p, hp⟩ := hex
    cases hp
  | cons head rest ih =>
    obtain ⟨u, path⟩ := head
    intro V N hex hnv
    simp only [runLevel]
    by_cases h1 : u ∈ V
    · rw [if_pos h1]
      obtain ⟨p, hp⟩ := hex
      rcases List.mem_cons.mp hp with h3 | h4
      · exact absurd h1 (by injection h3 with h5 _; exact h5 ▸ hnv)
      · exact ih V N ⟨p, h4⟩ hnv
    · rw [if_neg h1]
      by_cases h2 : u = endId
      · rw [if_pos h2]
        exact ⟨path, rfl⟩
      · rw [if_neg h2]
        obtain ⟨p, hp⟩ := hex
        rcases List.mem_cons.mp hp with h3 | h4
        · exact absurd (by injection h3 with h5 _; exact h5.symm) h2
        · exact ih (u :: V) _ ⟨p, h4⟩ (by
            intro hmem
            rcases List.mem_cons.mp hmem with h5 | h6
            · exact h2 h5.symm
            · exact hnv h6)

/-- If the level holds an unvisited entry for `u`, and `v` is a neighbour
of `u` not reachable within `k` hops, then the level either finds the
target or enqueues `v` for the next level. -/
theorem runLevel_child (db : List SemanticTriple) (endId start k u v : Nat)
    (hdeg : DegreeBounded db) (hadj : Adj db u v)
    (hv : ∀ j, j ≤ k → ¬ ReachN db j start v) :
    ∀ (Lv : List PathEntry) (V : List Nat) (N : List PathEntry),
      (∀ e ∈ Lv, ReachN db k start e.1) →
      (∀ w ∈ V, ∃ j, j ≤ k ∧ ReachN db j start w) →
      (((∃ p, (u, p) ∈ Lv) ∧ u ∉ V) ∨ v ∈ N.map Prod.fst) →
      (∃ q, runLevel db endId Lv V N = .found q) ∨
      (∃ next vis', runLevel db endId Lv V N = .cont next vis' ∧ v ∈ next.map Prod.fst) := by
  intro Lv
  induction Lv with
  | nil =>
    intro V N hLv hV hstate
    rcases hstate with ⟨⟨p, hp⟩, _⟩ | hvN
    · cases hp
    · exact Or.inr ⟨N, V, rfl, hvN⟩
  | cons head rest ih =>
    obtain ⟨w, q⟩ := head
    intro V N hLv hV hstate
    have hrest : ∀ e ∈ rest, ReachN db k start e.1 :=
      fun e he => hLv e (List.mem_cons_of_mem _ he)
    have hw : ReachN db k start w := hLv (w, q) (List.mem_cons_self _ _)
    simp only [runLevel]
    by_cases h1 : w ∈ V
    · rw [if_pos h1]
      apply ih V N hrest hV
      rcases hstate with ⟨⟨p, hp⟩, hu⟩ | hvN
      · rcases List.mem_cons.mp hp with h3 | h4
        · exact absurd h1 (by injection h3 with h5 _; exact h5 ▸ hu)
        · exact Or.inl ⟨⟨p, h4⟩, hu⟩
      · exact Or.inr hvN
    · rw [if_neg h1]
      by_cases h2 : w = endId
      · rw [if_pos h2]
        exact Or.inl ⟨q, rfl⟩
      · rw [if_neg h2]
        have hV' : ∀ x ∈ w :: V, ∃ j, j ≤ k ∧ ReachN db j start x := by
          intro x hx
          rcases List.mem_cons.mp hx with h3 | h4
          · exact ⟨k, Nat.le_refl k, h3 ▸ hw⟩
          · exact hV x h4
        apply ih (w :: V) _ hrest hV'
        rcases hstate with ⟨⟨p, hp⟩, hu⟩ | hvN
        · by_cases hum : u = w
          · -- this head is u's first unvisited occurrence: v gets enqueued
            subst hum
            have hvne : v ∉ u :: V := by
              intro hmem
              rcases List.mem_cons.mp hmem with h5 | h6
              · exact hv k (Nat.le_refl k) (h5 ▸ hw)
              · obtain ⟨j, hj, hrj⟩ := hV v h6
                exact hv j hj hrj
            obtain ⟨t, htdb, hcase⟩ := hadj
            refine Or.inr (List.mem_map.mpr ?_)
            rcases hcase with ⟨hs, ho⟩ | ⟨hs, ho⟩
            · exact ⟨(v, q ++ [⟨t.id, .outgoing⟩]), by
                refine List.mem_append.mpr (Or.inl (List.mem_append.mpr (Or.inr ?_)))
                exact mem_expand_out hdeg htdb hs ho hvne, rfl⟩
            · exact ⟨(v, q ++ [⟨t.id, .incoming⟩]), by
                refine List.mem_append.mpr (Or.inr ?_)
                exact mem_expand_in hdeg htdb hs ho hvne, rfl⟩
          · rcases List.mem_cons.mp hp with h3 | h4
            · exact absurd (congrArg Prod.fst h3) hum
            · refine Or.inl ⟨⟨p, h4⟩, ?_⟩
              intro hmem
              rcases List.mem_cons.mp hmem with h5 | h6
              · exact hum h5
              · exact hu h6
        · refine Or.inr ?_
          simp only [List.map_append, List.mem_append] at hvN ⊢
          tauto

/-- BFS level induction: with the queue holding the whole distance-`k`
frontier and enough depth budget left, the search succeeds. -/
theorem findPathAux_complete (db : List SemanticTriple) (start endId L : Nat)
    (hdeg : DegreeBounded db) (hmin : MinReach db start endId L) :
    ∀ (dRem : Nat) (k : Nat) (queue : List PathEntry) (visited : List Nat),
      k ≤ L → L < k + dRem →
      (∀ e ∈ queue, ReachN db k start e.1) →
      (∀ w ∈ visited, ∃ j, j < k ∧ ReachN db j start w) →
      (∀ v, MinReach db start v k → ∃ p, (v, p) ∈ queue) →
      (findPathAux db endId dRem queue visited).isSome := by
  intro dRem
  induction dRem with
  | zero =>
    intro k queue visited hk hbud _ _ _
    omega
  | succ dRem ih =>
    intro k queue visited hk hbud hq hvis hfront
    obtain ⟨uk, hmk⟩ := minReach_exists_at L endId hmin k hk
    obtain ⟨pk, hpk⟩ := hfront uk hmk
    have hne : queue.isEmpty = false := by
      cases queue with
      | nil => cases hpk
      | cons a l => rfl
    simp only [findPathAux, hne, Bool.false_eq_true, if_false]
    by_cases hkL : k = L
    · subst hkL
      have hend : ∃ p, (endId, p) ∈ queue := hfront endId hmin
      have hnotvis : endId ∉ visited := by
        intro hmem
        obtain ⟨j, hj, hrj⟩ := hvis endId hmem
        exact hmin.2 j hj hrj
      obtain ⟨q, hq'⟩ := runLevel_finds db endId queue visited [] hend hnotvis
      rw [hq']
      rfl
    · have hkL' : k < L := Nat.lt_of_le_of_ne hk hkL
      cases hrun : runLevel db endId queue visited [] with
      | found p => rfl
      | cont next vis' =>
        apply ih (k + 1) next vis' (by omega) (by omega)
        · exact runLevel_next_reach db endId start k queue visited [] next vis' hq
            (by intro e he; cases he) hrun
        · intro w hw
          rcases runLevel_visited db endId queue visited [] next vis' hrun w hw with h | ⟨p, hp⟩
          · obtain ⟨j, hj, hrj⟩ := hvis w h
            exact ⟨j, by omega, hrj⟩
          · exact ⟨k, by omega, hq (w, p) hp⟩
        · intro v hmv
          obtain ⟨u, hadj, hmu⟩ := minReach_pred hmv
          obtain ⟨pu, hpu⟩ := hfront u hmu
          have hunv : u ∉ visited := by
            intro hmem
            obtain ⟨j, hj, hrj⟩ := hvis u hmem
            exact hmu.2 j hj hrj
          have hvj : ∀ j, j ≤ k → ¬ ReachN db j start v := by
            intro j hj hrj
            exact hmv.2 j (by omega) hrj
          have hVw : ∀ w ∈ visited, ∃ j, j ≤ k ∧ ReachN db j start w := by
            intro w hw
            obtain ⟨j, hj, hrj⟩ := hvis w hw
            exact ⟨j, by omega, hrj⟩
          rcases runLevel_child db endId start k u v hdeg hadj hvj queue visited [] hq hVw
              (Or.inl ⟨⟨pu, hpu⟩, hunv⟩) with ⟨q2, hfq⟩ | ⟨next2, vis2, heq, hvnext⟩
          · rw [hrun] at hfq
            cases hfq
          · rw [hrun] at heq
            injection heq with h1 h2
            subst h1
            obtain ⟨e, he, hfst⟩ := List.mem_map.mp hvnext
            exact ⟨e.2, by
              have : e = (v, e.2) := by
                cases e
                simp at hfst
                simp [hfst]
              exact this ▸ he⟩

/-- **C1** (corrected claim): whenever some undirected path of at most
`d - 1` hops connects `startId` to `endId` — and every unit's outgoing and
incoming triple lists fit the repository's `limit=100` queries —
`find_path` with `max_depth = d` finds a path.  The budget shift is forced
by the code: the target test happens at dequeue time, so reaching a node at
distance `k` consumes `k + 1` depth units. -/
theorem find_path_complete (db : List SemanticTriple) (startId endId d n : Nat)
    (hdeg : DegreeBounded db) (hreach : ReachN db n startId endId) (hn : n < d) :
    (find_path db startId endId d).isSome := by
  obtain ⟨L, hLn, hmin⟩ := minReach_exists n hreach
  apply findPathAux_complete db startId endId L hdeg hmin d 0 [(startId, [])] []
    (Nat.zero_le L) (by omega)
  · intro e he
    rcases List.mem_cons.mp he with h | h
    · subst h; exact .refl startId
    · cases h
  · intro w hw
    cases hw
  · intro v hmv
    have hv : startId = v := reach_zero hmv.1
    exact ⟨[], hv ▸ List.mem_cons_self _ _⟩

/-- Witness for `find_path_complete`: the chain `U1→U2→U3→U4` with a
3-hop path and `max_depth = 4`. -/
theorem find_path_complete_witness :
    DegreeBounded chainDb ∧ ReachN chainDb 3 1 4 ∧ 3 < 4 ∧
    (find_path chainDb 1 4 4).isSome := by
  have hdeg : DegreeBounded chainDb := by
    intro u
    exact ⟨Nat.le_trans (List.length_filter_le _ _) (by decide),
           Nat.le_trans (List.length_filter_le _ _) (by decide)⟩
  have a12 : Adj chainDb 1 2 := by unfold Adj; decide
  have a23 : Adj chainDb 2 3 := by unfold Adj; decide
  have a34 : Adj chainDb 3 4 := by unfold Adj; decide
  have hreach : ReachN chainDb 3 1 4 := .step a12 (.step a23 (.step a34 (.refl 4)))
  exact ⟨hdeg, hreach, by decide, find_path_complete chainDb 1 4 4 3 hdeg hreach (by decide)⟩

end MindArch
